import Mathlib

/-!
Verification of the streaming JSON-object decoder `parse_json_stream`
from `src/app.py`.

The Python function is:

```
decoder = json.JSONDecoder(strict=False)
buffer = ""
for chunk in response.iter_content(chunk_size=None):
    buffer += chunk.decode("utf-8")
    buffer = buffer[buffer.find("{"):]
    while True:
        try:
            obj, idx = decoder.raw_decode(buffer)
            yield obj
            buffer = buffer[idx:]
        except json.JSONDecodeError:
            # Incomplete JSON object
            break
```

The embedding models:
  * the CPython `json` scanner (`json/scanner.py` + `json/decoder.py`)
    that `decoder.raw_decode` invokes: `scanOnce` below, with the same
    dispatch order ('"', '{', '[', `null`, `true`, `false`, number,
    `NaN`, `Infinity`, `-Infinity`), the same whitespace handling
    (whitespace is `' '`, `'\t'`, `'\n'`, `'\r'`, skipped inside objects
    and arrays but NOT before a top-level value), and `scanstring` with
    the `strict` flag (`strict=False` admits control characters inside
    strings; escapes `\" \\ \/ \b \f \n \r \t` and `\uXXXX` with
    surrogate-pair combination are handled as in CPython);
  * strict UTF-8 decoding of each byte chunk (`chunk.decode("utf-8")`),
    which fails on truncated or malformed multi-byte sequences;
  * the `buffer.find("{")` trim including Python's slice semantics for
    the `-1` result when no `'{'` is present (`buffer[-1:]` keeps the
    final character);
  * the inner `while True` drain loop and the outer chunk loop, with an
    error flag recording an uncaught exception (`UnicodeDecodeError`);
    `json.JSONDecodeError` is caught by the source and never escapes.

Representation choices (noted where they idealize):
  * decoded text is `List Char`; parsers consume a suffix and return the
    remaining suffix (Python's integer index `idx` corresponds to the
    dropped prefix length);
  * string contents are lists of code points (`List Nat`) so that lone
    surrogates from `\uXXXX` escapes are representable as in Python;
  * numbers keep their source lexeme (no float arithmetic is modelled);
    `NaN`/`Infinity`/`-Infinity` are kept as their lexemes as well;
  * `\uXXXX` escapes are modelled as exactly four hexadecimal digits
    (CPython's `int(esc, 16)` additionally tolerates exotic forms such
    as a leading `+`, which no JSON producer emits).
-/

/-- A decoded JSON value as produced by the CPython decoder, with
numbers kept as lexemes and strings as code-point lists. Objects keep
their key/value pairs in source order. -/
inductive JsonValue where
  | null
  | bool (b : Bool)
  | num (lexeme : List Char)
  | str (codepoints : List Nat)
  | arr (elems : List JsonValue)
  | obj (members : List (List Nat × JsonValue))

/-- JSON whitespace, CPython's `WHITESPACE_STR = ' \t\n\r'`. -/
def isPyWs (c : Char) : Bool := c = ' ' || c = '\t' || c = '\n' || c = '\r'

/-- Skip JSON whitespace (the `_w(s, end).end()` idiom of `json/decoder.py`). -/
def skipWs (s : List Char) : List Char := s.dropWhile isPyWs

/-- One hexadecimal digit, as accepted by `\uXXXX` escapes. -/
def hexVal (c : Char) : Option Nat :=
  if '0' ≤ c ∧ c ≤ '9' then some (c.toNat - '0'.toNat)
  else if 'a' ≤ c ∧ c ≤ 'f' then some (c.toNat - 'a'.toNat + 10)
  else if 'A' ≤ c ∧ c ≤ 'F' then some (c.toNat - 'A'.toNat + 10)
  else none

/-- Four hexadecimal digits (`_decode_uXXXX` in `json/decoder.py`). -/
def hex4 (a b c d : Char) : Option Nat :=
  match hexVal a, hexVal b, hexVal c, hexVal d with
  | some x, some y, some z, some w => some (((x * 16 + y) * 16 + z) * 16 + w)
  | _, _, _, _ => none

/-- The single-character escape table `BACKSLASH` of `json/decoder.py`. -/
def escMap (e : Char) : Option Nat :=
  if e = '"' then some 0x22
  else if e = '\\' then some 0x5C
  else if e = '/' then some 0x2F
  else if e = 'b' then some 0x08
  else if e = 'f' then some 0x0C
  else if e = 'n' then some 0x0A
  else if e = 'r' then some 0x0D
  else if e = 't' then some 0x09
  else none

/-- After a high surrogate from `\uXXXX`, CPython peeks for a following
`\uXXXX` low surrogate (`0xDC00..0xDFFF`) to combine the pair. -/
def lowPair (s : List Char) : Option (Nat × List Char) :=
  match s with
  | e2 :: u2 :: rest =>
    if e2 = '\\' ∧ u2 = 'u' then
      match rest with
      | g1 :: g2 :: g3 :: g4 :: r4 =>
        match hex4 g1 g2 g3 g4 with
        | some m => if 0xDC00 ≤ m ∧ m ≤ 0xDFFF then some (m, r4) else none
        | none => none
      | _ => none
    else none
  | _ => none

/-- `scanstring` from `json/decoder.py`, after the opening quote, with
explicit fuel (one unit per consumed input character suffices). Returns
the string's code points and the input remaining after the closing
quote. In `strict` mode a raw control character (code point `< 0x20`)
is an error; with `strict=False` it is accepted as content. -/
def scanStrF : Nat → Bool → List Char → Option (List Nat × List Char)
  | 0, _, _ => none
  | _ + 1, _, [] => none
  | f + 1, st, c :: r =>
    if c = '"' then some ([], r)
    else if c = '\\' then
      match r with
      | [] => none
      | e :: r2 =>
        if e = 'u' then
          match r2 with
          | h1 :: h2 :: h3 :: h4 :: r3 =>
            match hex4 h1 h2 h3 h4 with
            | some n =>
              if 0xD800 ≤ n ∧ n < 0xDC00 then
                match lowPair r3 with
                | some (m, r4) =>
                  (scanStrF f st r4).map
                    (fun p => ((0x10000 + (n - 0xD800) * 0x400 + (m - 0xDC00)) :: p.1, p.2))
                | none => (scanStrF f st r3).map (fun p => (n :: p.1, p.2))
              else (scanStrF f st r3).map (fun p => (n :: p.1, p.2))
            | none => none
          | _ => none
        else
          match escMap e with
          | some ch => (scanStrF f st r2).map (fun p => (ch :: p.1, p.2))
          | none => none
    else if st ∧ c.toNat < 0x20 then none
    else (scanStrF f st r).map (fun p => (c.toNat :: p.1, p.2))

/-- `scanstring` with enough fuel for its input. -/
def scanStr (st : Bool) (s : List Char) : Option (List Nat × List Char) :=
  scanStrF (s.length + 1) st s

/-- The integer part of CPython's `NUMBER_RE`: `-?(0|[1-9][0-9]*)` without
the sign. -/
def intPart : List Char → Option (List Char × List Char)
  | [] => none
  | c :: r =>
    if c = '0' then some (['0'], r)
    else if '1' ≤ c ∧ c ≤ '9' then some (c :: r.takeWhile Char.isDigit, r.dropWhile Char.isDigit)
    else none

/-- The optional fraction `(\.[0-9]+)?` of `NUMBER_RE`; on no match the
input is returned unconsumed. -/
def fracPart : List Char → List Char × List Char
  | [] => ([], [])
  | c :: r =>
    if c = '.' then
      let ds := r.takeWhile Char.isDigit
      if ds = [] then ([], c :: r) else ('.' :: ds, r.dropWhile Char.isDigit)
    else ([], c :: r)

/-- The optional exponent `([eE][-+]?[0-9]+)?` of `NUMBER_RE`; on no
match the input is returned unconsumed. -/
def expPart : List Char → List Char × List Char
  | [] => ([], [])
  | c :: r =>
    if c = 'e' ∨ c = 'E' then
      let sg : List Char × List Char :=
        match r with
        | c2 :: r2 => if c2 = '+' ∨ c2 = '-' then ([c2], r2) else ([], r)
        | [] => ([], r)
      let ds := sg.2.takeWhile Char.isDigit
      if ds = [] then ([], c :: r)
      else (c :: sg.1 ++ ds, sg.2.dropWhile Char.isDigit)
    else ([], c :: r)

/-- CPython's anchored `NUMBER_RE.match`: sign, integer part, optional
fraction, optional exponent. Returns the matched lexeme and the rest. -/
def matchNumber (s : List Char) : Option (List Char × List Char) :=
  let sg : List Char × List Char :=
    match s with
    | c :: r => if c = '-' then (['-'], r) else ([], s)
    | [] => ([], s)
  match intPart sg.2 with
  | none => none
  | some (ip, s2) =>
    let fp := fracPart s2
    let ep := expPart fp.2
    some (sg.1 ++ ip ++ fp.1 ++ ep.1, ep.2)

def nullLit : List Char := ['n', 'u', 'l', 'l']
def trueLit : List Char := ['t', 'r', 'u', 'e']
def falseLit : List Char := ['f', 'a', 'l', 's', 'e']
def nanLit : List Char := ['N', 'a', 'N']
def infLit : List Char := ['I', 'n', 'f', 'i', 'n', 'i', 't', 'y']
def ninfLit : List Char := ['-', 'I', 'n', 'f', 'i', 'n', 'i', 't', 'y']

mutual

/-- `_scan_once` of `json/scanner.py`: dispatch on the first character,
in CPython's order: `"` (string), `{` (object), `[` (array), the
literals `null`/`true`/`false`, a number, then `NaN`/`Infinity`/
`-Infinity`. No leading whitespace is skipped (this is `raw_decode`'s
observable behavior). Fuel decreases at every nested scan. -/
def scanOnce : Nat → Bool → List Char → Option (JsonValue × List Char)
  | 0, _, _ => none
  | Nat.succ f, st, s =>
    match s with
    | [] => none
    | c :: r =>
      if c = '"' then
        match scanStr st r with
        | some (cs, r2) => some (.str cs, r2)
        | none => none
      else if c = '{' then
        match skipWs r with
        | [] => none
        | d :: r2 =>
          if d = '}' then some (.obj [], r2)
          else if d = '"' then
            match parseMembers f st r2 with
            | some (ms, r3) => some (.obj ms, r3)
            | none => none
          else none
      else if c = '[' then
        match skipWs r with
        | [] => none
        | d :: r2 =>
          if d = ']' then some (.arr [], r2)
          else
            match parseElems f st (d :: r2) with
            | some (vs, r3) => some (.arr vs, r3)
            | none => none
      else if nullLit.isPrefixOf s then some (.null, s.drop 4)
      else if trueLit.isPrefixOf s then some (.bool true, s.drop 4)
      else if falseLit.isPrefixOf s then some (.bool false, s.drop 5)
      else
        match matchNumber s with
        | some (lex, r2) => some (.num lex, r2)
        | none =>
          if nanLit.isPrefixOf s then some (.num nanLit, s.drop 3)
          else if infLit.isPrefixOf s then some (.num infLit, s.drop 8)
          else if ninfLit.isPrefixOf s then some (.num ninfLit, s.drop 9)
          else none

/-- `JSONObject` of `json/decoder.py` from just after the opening quote
of a key: key string, whitespace, `:`, whitespace, value, whitespace,
then `}` (done) or `,` + whitespace + the next key's opening quote. -/
def parseMembers : Nat → Bool → List Char → Option (List (List Nat × JsonValue) × List Char)
  | 0, _, _ => none
  | Nat.succ f, st, s =>
    match scanStr st s with
    | none => none
    | some (k, s1) =>
      match skipWs s1 with
      | [] => none
      | c :: s2 =>
        if c = ':' then
          match scanOnce f st (skipWs s2) with
          | none => none
          | some (v, s3) =>
            match skipWs s3 with
            | [] => none
            | d :: s4 =>
              if d = '}' then some ([(k, v)], s4)
              else if d = ',' then
                match skipWs s4 with
                | [] => none
                | e :: s5 =>
                  if e = '"' then
                    match parseMembers f st s5 with
                    | some (ms, s6) => some ((k, v) :: ms, s6)
                    | none => none
                  else none
              else none
        else none

/-- `JSONArray` of `json/decoder.py` from the first element onward:
value, whitespace, then `]` (done) or `,` + whitespace + next value. -/
def parseElems : Nat → Bool → List Char → Option (List JsonValue × List Char)
  | 0, _, _ => none
  | Nat.succ f, st, s =>
    match scanOnce f st s with
    | none => none
    | some (v, s1) =>
      match skipWs s1 with
      | [] => none
      | d :: s2 =>
        if d = ']' then some ([v], s2)
        else if d = ',' then
          match parseElems f st (skipWs s2) with
          | some (vs, s3) => some (v :: vs, s3)
          | none => none
        else none

end

/-- `decoder.raw_decode(buffer)` with `strict=False` (`app.py` line 18):
parse one JSON value at position 0; the returned suffix corresponds to
Python's index `idx`. One fuel unit per input character plus one is
sufficient for every successful CPython parse. -/
def rawDecode (s : List Char) : Option (JsonValue × List Char) :=
  scanOnce (s.length + 1) false s

/-- The same decoder with `strict=True` (CPython's default), used to
state what a strict parser would reject. -/
def rawDecodeS (s : List Char) : Option (JsonValue × List Char) :=
  scanOnce (s.length + 1) true s

/-- The inner `while True` loop of `parse_json_stream` with fuel:
repeatedly `raw_decode` the buffer, yield the value and drop the
consumed prefix, until a decode fails (`except json.JSONDecodeError:
break`), which leaves the buffer untouched. -/
def drainF : Nat → List Char → List JsonValue × List Char
  | 0, b => ([], b)
  | Nat.succ f, b =>
    match rawDecode b with
    | none => ([], b)
    | some (v, r) =>
      let p := drainF f r
      (v :: p.1, p.2)

/-- The drain loop with enough fuel (each successful decode consumes at
least one character, so `length + 1` rounds always finish). -/
def drain (b : List Char) : List JsonValue × List Char := drainF (b.length + 1) b

/-- `buffer = buffer[buffer.find("{"):]` (`app.py` line 22), including
Python's semantics when `'{'` does not occur: `find` returns `-1` and
`buffer[-1:]` keeps only the final character. -/
def pyTrim (b : List Char) : List Char :=
  match b.findIdx? (fun c => c = '{') with
  | some i => b.drop i
  | none => b.drop (b.length - 1)

/-- Strict UTF-8 decoding, as `chunk.decode("utf-8")`: rejects
truncated sequences, stray continuation bytes, overlong forms,
surrogates and code points above `0x10FFFF`. Fuel decreases once per
decoded code point, so `length` fuel always suffices. -/
def utf8DecodeF : Nat → List Nat → Option (List Char)
  | _, [] => some []
  | 0, _ :: _ => none
  | f + 1, b :: r =>
    if b < 0x80 then (utf8DecodeF f r).map (fun cs => Char.ofNat b :: cs)
    else if b < 0xC2 then none
    else if b < 0xE0 then
      match r with
      | b1 :: r1 =>
        if 0x80 ≤ b1 ∧ b1 < 0xC0 then
          (utf8DecodeF f r1).map (fun cs => Char.ofNat ((b - 0xC0) * 0x40 + (b1 - 0x80)) :: cs)
        else none
      | [] => none
    else if b < 0xF0 then
      match r with
      | b1 :: b2 :: r2 =>
        if (0x80 ≤ b1 ∧ b1 < 0xC0) ∧ (0x80 ≤ b2 ∧ b2 < 0xC0) ∧
            (b = 0xE0 → 0xA0 ≤ b1) ∧ (b = 0xED → b1 < 0xA0) then
          (utf8DecodeF f r2).map
            (fun cs => Char.ofNat ((b - 0xE0) * 0x1000 + (b1 - 0x80) * 0x40 + (b2 - 0x80)) :: cs)
        else none
      | _ => none
    else if b < 0xF5 then
      match r with
      | b1 :: b2 :: b3 :: r3 =>
        if (0x80 ≤ b1 ∧ b1 < 0xC0) ∧ (0x80 ≤ b2 ∧ b2 < 0xC0) ∧ (0x80 ≤ b3 ∧ b3 < 0xC0) ∧
            (b = 0xF0 → 0x90 ≤ b1) ∧ (b = 0xF4 → b1 < 0x90) then
          (utf8DecodeF f r3).map
            (fun cs => Char.ofNat ((b - 0xF0) * 0x40000 + (b1 - 0x80) * 0x1000 +
              (b2 - 0x80) * 0x40 + (b3 - 0x80)) :: cs)
        else none
      | _ => none
    else none

/-- `chunk.decode("utf-8")` (`app.py` line 21): strict UTF-8 decoding
of one chunk, with enough fuel for its length. -/
def utf8Decode (l : List Nat) : Option (List Char) := utf8DecodeF l.length l

/-- The chunk loop of `parse_json_stream` over byte chunks, carrying
the buffer. The `Bool` records whether the generator terminated with an
uncaught exception: `chunk.decode("utf-8")` raising `UnicodeDecodeError`
(`app.py` line 21) is the only uncaught error; a failed `raw_decode`
only breaks the inner loop. On end of input the leftover buffer is
dropped and the generator ends normally. -/
def runBytes : List Char → List (List Nat) → List JsonValue × Bool
  | _, [] => ([], false)
  | buffer, ch :: rest =>
    match utf8Decode ch with
    | none => ([], true)
    | some ds =>
      let p := drain (pyTrim (buffer ++ ds))
      let q := runBytes p.2 rest
      (p.1 ++ q.1, q.2)

/-- `parse_json_stream(response)` (`app.py` lines 9-30) as a function of
the byte-chunk sequence produced by `response.iter_content`: the list of
yielded values, and whether an uncaught exception ended the generator. -/
def parse_json_stream (chunks : List (List Nat)) : List JsonValue × Bool :=
  runBytes [] chunks

/-- The chunk loop over already-decoded text chunks (each chunk decoded
individually, as the source does). Used to relate byte-level runs to
text-level reasoning. -/
def runChar : List Char → List (List Char) → List JsonValue
  | _, [] => []
  | buffer, c :: rest =>
    let p := drain (pyTrim (buffer ++ c))
    p.1 ++ runChar p.2 rest

/-- Instrumented drain loop: each yielded value is paired with the
logical-stream position just past its closing character; `pos` counts
the characters of the logical text stream already consumed or
discarded. Also returns the final position and leftover buffer. -/
def drainP : Nat → Nat → List Char → List (JsonValue × Nat) × Nat × List Char
  | 0, pos, b => ([], pos, b)
  | Nat.succ f, pos, b =>
    match rawDecode b with
    | none => ([], pos, b)
    | some (v, r) =>
      let idx := b.length - r.length
      let p := drainP f (pos + idx) r
      ((v, pos + idx) :: p.1, p.2)

/-- Instrumented chunk loop: `parse_json_stream` with every emission
tagged by the position of its closing character in the logical decoded
stream (trimmed characters advance the position without emitting). -/
def runBytesP : Nat → List Char → List (List Nat) → List (JsonValue × Nat) × Bool
  | _, _, [] => ([], false)
  | pos, buffer, ch :: rest =>
    match utf8Decode ch with
    | none => ([], true)
    | some ds =>
      let b0 := buffer ++ ds
      let b1 := pyTrim b0
      let p := drainP (b1.length + 1) (pos + (b0.length - b1.length)) b1
      let q := runBytesP p.2.1 p.2.2 rest
      (p.1 ++ q.1, q.2)

/-- Characters of a string literal (convenience for statements). -/
def strChars (s : String) : List Char := s.toList

/-- Bytes of an ASCII string literal (convenience for statements). -/
def asciiBytes (s : String) : List Nat := s.toList.map Char.toNat

/-! ### Basic facts about the parsers -/

theorem scanStrF_nil (f : Nat) (st : Bool) : scanStrF f st [] = none := by
  cases f <;> rfl

theorem scanOnce_nil (f : Nat) (st : Bool) : scanOnce f st [] = none := by
  cases f <;> rfl

theorem skipWs_nil : skipWs [] = [] := rfl

theorem skipWs_suffix (s : List Char) : ∃ p, s = p ++ skipWs s :=
  ⟨s.takeWhile isPyWs, (List.takeWhile_append_dropWhile ..).symm⟩

theorem lowPair_suffix {s : List Char} {m : Nat} {r : List Char}
    (h : lowPair s = some (m, r)) : ∃ p, p ≠ [] ∧ s = p ++ r := by
  unfold lowPair at h
  split at h
  · rename_i e2 u2 rest
    split at h
    · split at h
      · rename_i g1 g2 g3 g4 r4
        split at h
        · split at h
          · exact ⟨[e2, u2, g1, g2, g3, g4], by simp, by simp_all⟩
          · exact absurd h (by simp)
        · exact absurd h (by simp)
      · exact absurd h (by simp)
    · exact absurd h (by simp)
  · exact absurd h (by simp)

/-- `r` is a suffix of `s` (possibly all of it). -/
def Suf (s r : List Char) : Prop := ∃ p, s = p ++ r

/-- `r` is a proper suffix of `s`: a nonempty prefix was consumed. -/
def SufBy (s r : List Char) : Prop := ∃ p, p ≠ [] ∧ s = p ++ r

theorem suf_rfl (s : List Char) : Suf s s := ⟨[], rfl⟩

theorem suf_skipWs (s : List Char) : Suf s (skipWs s) :=
  ⟨s.takeWhile isPyWs, (List.takeWhile_append_dropWhile ..).symm⟩

theorem sufBy_cons (c : Char) (s : List Char) : SufBy (c :: s) s :=
  ⟨[c], by simp, rfl⟩

theorem Suf.trans_sufBy {s t r : List Char} (h1 : Suf s t) (h2 : SufBy t r) : SufBy s r := by
  obtain ⟨p, rfl⟩ := h1; obtain ⟨q, hq, rfl⟩ := h2
  exact ⟨p ++ q, by simp [hq], by simp⟩

theorem SufBy.trans_suf {s t r : List Char} (h1 : SufBy s t) (h2 : Suf t r) : SufBy s r := by
  obtain ⟨p, hp, rfl⟩ := h1; obtain ⟨q, rfl⟩ := h2
  exact ⟨p ++ q, by simp [hp], by simp⟩

theorem SufBy.trans {s t r : List Char} (h1 : SufBy s t) (h2 : SufBy t r) : SufBy s r :=
  h1.trans_suf ⟨h2.choose, h2.choose_spec.2⟩

theorem SufBy.suf {s t : List Char} (h : SufBy s t) : Suf s t :=
  ⟨h.choose, h.choose_spec.2⟩

theorem SufBy.length_lt {s r : List Char} (h : SufBy s r) : r.length < s.length := by
  obtain ⟨p, hp, rfl⟩ := h
  have : 0 < p.length := List.length_pos.mpr hp
  simp; omega

theorem Suf.length_le {s r : List Char} (h : Suf s r) : r.length ≤ s.length := by
  obtain ⟨p, rfl⟩ := h; simp

theorem scanStrF_sufBy : ∀ (f : Nat) {st : Bool} {s : List Char} {cs : List Nat} {r : List Char},
    scanStrF f st s = some (cs, r) → SufBy s r := by
  intro f
  induction f with
  | zero => intro st s cs r h; simp [scanStrF] at h
  | succ f ih =>
    intro st s cs r h
    match s with
    | [] => simp [scanStrF] at h
    | c :: s' =>
      simp only [scanStrF] at h
      by_cases hq : c = '"'
      · rw [if_pos hq] at h
        simp only [Option.some.injEq, Prod.mk.injEq] at h
        exact h.2 ▸ sufBy_cons c s'
      · rw [if_neg hq] at h
        by_cases hb : c = '\\'
        · rw [if_pos hb] at h
          match s' with
          | [] => simp at h
          | e :: r2 =>
            dsimp only at h
            by_cases hu : e = 'u'
            · rw [if_pos hu] at h
              match r2 with
              | [] => simp at h
              | [h1] => simp at h
              | [h1, h2] => simp at h
              | [h1, h2, h3] => simp at h
              | h1 :: h2 :: h3 :: h4 :: r3 =>
                dsimp only at h
                rcases hx : hex4 h1 h2 h3 h4 with _ | n
                · rw [hx] at h; simp at h
                · rw [hx] at h
                  dsimp only at h
                  have tail6 : SufBy (c :: e :: h1 :: h2 :: h3 :: h4 :: r3) r3 :=
                    ⟨[c, e, h1, h2, h3, h4], by simp, rfl⟩
                  by_cases hs : 0xD800 ≤ n ∧ n < 0xDC00
                  · rw [if_pos hs] at h
                    rcases hlp : lowPair r3 with _ | ⟨m, r4⟩
                    · rw [hlp] at h
                      dsimp only at h
                      simp only [Option.map_eq_some'] at h
                      obtain ⟨⟨cs3, r3'⟩, hrec, hco⟩ := h
                      obtain ⟨rfl⟩ : r3' = r := by simpa using congrArg Prod.snd hco
                      exact tail6.trans (ih hrec)
                    · rw [hlp] at h
                      dsimp only at h
                      simp only [Option.map_eq_some'] at h
                      obtain ⟨⟨cs4, r4'⟩, hrec, hco⟩ := h
                      obtain ⟨rfl⟩ : r4' = r := by simpa using congrArg Prod.snd hco
                      obtain ⟨q, hq', hq2⟩ := lowPair_suffix hlp
                      exact tail6.trans ((hq2 ▸ ⟨q, hq', rfl⟩ : SufBy r3 r4).trans (ih hrec))
                  · rw [if_neg hs] at h
                    simp only [Option.map_eq_some'] at h
                    obtain ⟨⟨cs3, r3'⟩, hrec, hco⟩ := h
                    obtain ⟨rfl⟩ : r3' = r := by simpa using congrArg Prod.snd hco
                    exact tail6.trans (ih hrec)
            · rw [if_neg hu] at h
              rcases hm : escMap e with _ | ch
              · rw [hm] at h; simp at h
              · rw [hm] at h
                dsimp only at h
                simp only [Option.map_eq_some'] at h
                obtain ⟨⟨cs2, r2'⟩, hrec, hco⟩ := h
                obtain ⟨rfl⟩ : r2' = r := by simpa using congrArg Prod.snd hco
                exact (sufBy_cons c _).trans ((sufBy_cons e _).trans (ih hrec))
        · rw [if_neg hb] at h
          by_cases hctl : st = true ∧ c.toNat < 0x20
          · rw [if_pos hctl] at h; simp at h
          · rw [if_neg hctl] at h
            simp only [Option.map_eq_some'] at h
            obtain ⟨⟨cs', r'⟩, hrec, hco⟩ := h
            obtain ⟨rfl⟩ : r' = r := by simpa using congrArg Prod.snd hco
            exact (sufBy_cons c _).trans (ih hrec)

theorem scanStr_sufBy {st : Bool} {s : List Char} {cs : List Nat} {r : List Char}
    (h : scanStr st s = some (cs, r)) : SufBy s r := scanStrF_sufBy _ h

theorem intPart_eq {s ip r : List Char} (h : intPart s = some (ip, r)) :
    ip ≠ [] ∧ s = ip ++ r := by
  match s with
  | [] => simp [intPart] at h
  | c :: s' =>
    simp only [intPart] at h
    by_cases h0 : c = '0'
    · rw [if_pos h0] at h
      simp only [Option.some.injEq, Prod.mk.injEq] at h
      obtain ⟨rfl, rfl⟩ := h
      simp [h0]
    · rw [if_neg h0] at h
      by_cases h19 : '1' ≤ c ∧ c ≤ '9'
      · rw [if_pos h19] at h
        simp only [Option.some.injEq, Prod.mk.injEq] at h
        obtain ⟨rfl, rfl⟩ := h
        simp [List.takeWhile_append_dropWhile]
      · rw [if_neg h19] at h; simp at h

theorem fracPart_eq (s : List Char) : (fracPart s).1 ++ (fracPart s).2 = s := by
  match s with
  | [] => rfl
  | c :: s' =>
    simp only [fracPart]
    by_cases hd : c = '.'
    · rw [if_pos hd]
      by_cases he : s'.takeWhile Char.isDigit = []
      · rw [if_pos he]; simp
      · rw [if_neg he]; simp [hd, List.takeWhile_append_dropWhile]
    · rw [if_neg hd]; simp

theorem expPart_eq (s : List Char) : (expPart s).1 ++ (expPart s).2 = s := by
  match s with
  | [] => rfl
  | c :: s' =>
    simp only [expPart]
    by_cases hd : c = 'e' ∨ c = 'E'
    · rw [if_pos hd]
      match s' with
      | [] =>
        dsimp only
        rw [if_pos (by rfl)]
        rfl
      | c2 :: r2 =>
        dsimp only
        by_cases hsg : c2 = '+' ∨ c2 = '-'
        · rw [if_pos hsg]
          by_cases he : r2.takeWhile Char.isDigit = []
          · rw [if_pos he]; rfl
          · rw [if_neg he]; simp [List.takeWhile_append_dropWhile]
        · rw [if_neg hsg]
          by_cases he : (c2 :: r2).takeWhile Char.isDigit = []
          · rw [if_pos he]; rfl
          · rw [if_neg he]; simp [List.takeWhile_append_dropWhile]
    · rw [if_neg hd]; simp

theorem matchNumber_eq {s lex r : List Char} (h : matchNumber s = some (lex, r)) :
    lex ≠ [] ∧ s = lex ++ r := by
  unfold matchNumber at h
  dsimp only at h
  rcases hip : intPart (match s with
    | c :: r => if c = '-' then (['-'], r) else ([], s)
    | [] => ([], s)).2 with _ | ⟨ip, s2⟩
  · rw [hip] at h; simp at h
  · rw [hip] at h
    dsimp only at h
    simp only [Option.some.injEq, Prod.mk.injEq] at h
    obtain ⟨rfl, rfl⟩ := h
    obtain ⟨hip1, hip2⟩ := intPart_eq hip
    have hfrac := fracPart_eq s2
    have hexp := expPart_eq (fracPart s2).2
    constructor
    · simp [hip1]
    · match s with
      | [] => simp [intPart] at hip
      | c :: s' =>
        dsimp only at hip hip2 ⊢
        by_cases hm : c = '-'
        · rw [if_pos hm] at hip hip2 ⊢
          dsimp only at hip2 ⊢
          subst hm
          simp [hip2, List.append_assoc, hexp, hfrac]
        · rw [if_neg hm] at hip hip2 ⊢
          dsimp only at hip2 ⊢
          rw [hip2]
          simp [List.append_assoc, hexp, hfrac]

theorem matchNumber_sufBy {s lex r : List Char} (h : matchNumber s = some (lex, r)) :
    SufBy s r := by
  obtain ⟨h1, h2⟩ := matchNumber_eq h
  exact ⟨lex, h1, h2⟩

theorem sufBy_skip_cons {x y : List Char} {d : Char} (h : skipWs x = d :: y) : SufBy x y :=
  Suf.trans_sufBy (h ▸ suf_skipWs x) (sufBy_cons d y)

theorem sufBy_drop_of_isPrefixOf {p s : List Char} (hp : p ≠ []) (h : p.isPrefixOf s) :
    SufBy s (s.drop p.length) := by
  obtain ⟨t, rfl⟩ := List.isPrefixOf_iff_prefix.mp h
  refine ⟨p, hp, ?_⟩
  rw [List.drop_append_of_le_length (by omega), List.drop_length, List.nil_append]

theorem scanSufBundle : ∀ f : Nat,
    (∀ {st : Bool} {s : List Char} {v : JsonValue} {r : List Char},
      scanOnce f st s = some (v, r) → SufBy s r) ∧
    (∀ {st : Bool} {s : List Char} {ms : List (List Nat × JsonValue)} {r : List Char},
      parseMembers f st s = some (ms, r) → SufBy s r) ∧
    (∀ {st : Bool} {s : List Char} {vs : List JsonValue} {r : List Char},
      parseElems f st s = some (vs, r) → SufBy s r) := by
  intro f
  induction f with
  | zero =>
    refine ⟨?_, ?_, ?_⟩ <;> intro st s x r h <;>
      simp [scanOnce, parseMembers, parseElems] at h
  | succ f ih =>
    obtain ⟨ihS, ihM, ihE⟩ := ih
    refine ⟨?_, ?_, ?_⟩
    · intro st s v r h
      match s with
      | [] => simp [scanOnce] at h
      | c :: s' =>
        simp only [scanOnce] at h
        by_cases h1 : c = '"'
        · rw [if_pos h1] at h
          rcases hscan : scanStr st s' with _ | ⟨cs, r2⟩
          · rw [hscan] at h; simp at h
          · rw [hscan] at h; dsimp only at h
            simp only [Option.some.injEq, Prod.mk.injEq] at h
            obtain ⟨rfl, rfl⟩ := h
            exact (sufBy_cons c s').trans (scanStr_sufBy hscan)
        · rw [if_neg h1] at h
          by_cases h2 : c = '{'
          · rw [if_pos h2] at h
            rcases hsw : skipWs s' with _ | ⟨d, r2⟩
            · rw [hsw] at h; simp at h
            · rw [hsw] at h; dsimp only at h
              by_cases hd : d = '}'
              · rw [if_pos hd] at h
                simp only [Option.some.injEq, Prod.mk.injEq] at h
                obtain ⟨rfl, rfl⟩ := h
                exact (sufBy_cons c s').trans_suf (sufBy_skip_cons hsw).suf
              · rw [if_neg hd] at h
                by_cases hq : d = '"'
                · rw [if_pos hq] at h
                  rcases hpm : parseMembers f st r2 with _ | ⟨ms, r3⟩
                  · rw [hpm] at h; simp at h
                  · rw [hpm] at h; dsimp only at h
                    simp only [Option.some.injEq, Prod.mk.injEq] at h
                    obtain ⟨rfl, rfl⟩ := h
                    exact ((sufBy_cons c s').trans (sufBy_skip_cons hsw)).trans (ihM hpm)
                · rw [if_neg hq] at h; simp at h
          · rw [if_neg h2] at h
            by_cases h3 : c = '['
            · rw [if_pos h3] at h
              rcases hsw : skipWs s' with _ | ⟨d, r2⟩
              · rw [hsw] at h; simp at h
              · rw [hsw] at h; dsimp only at h
                by_cases hd : d = ']'
                · rw [if_pos hd] at h
                  simp only [Option.some.injEq, Prod.mk.injEq] at h
                  obtain ⟨rfl, rfl⟩ := h
                  exact (sufBy_cons c s').trans_suf (sufBy_skip_cons hsw).suf
                · rw [if_neg hd] at h
                  rcases hpe : parseElems f st (d :: r2) with _ | ⟨vs, r3⟩
                  · rw [hpe] at h; simp at h
                  · rw [hpe] at h; dsimp only at h
                    simp only [Option.some.injEq, Prod.mk.injEq] at h
                    obtain ⟨rfl, rfl⟩ := h
                    exact (sufBy_cons c s').trans_suf
                      ((hsw ▸ suf_skipWs s').trans_sufBy (ihE hpe)).suf
            · rw [if_neg h3] at h
              by_cases h4 : nullLit.isPrefixOf (c :: s')
              · rw [if_pos h4] at h
                simp only [Option.some.injEq, Prod.mk.injEq] at h
                obtain ⟨rfl, rfl⟩ := h
                exact sufBy_drop_of_isPrefixOf (by simp [nullLit]) h4
              · rw [if_neg h4] at h
                by_cases h5 : trueLit.isPrefixOf (c :: s')
                · rw [if_pos h5] at h
                  simp only [Option.some.injEq, Prod.mk.injEq] at h
                  obtain ⟨rfl, rfl⟩ := h
                  exact sufBy_drop_of_isPrefixOf (by simp [trueLit]) h5
                · rw [if_neg h5] at h
                  by_cases h6 : falseLit.isPrefixOf (c :: s')
                  · rw [if_pos h6] at h
                    simp only [Option.some.injEq, Prod.mk.injEq] at h
                    obtain ⟨rfl, rfl⟩ := h
                    exact sufBy_drop_of_isPrefixOf (by simp [falseLit]) h6
                  · rw [if_neg h6] at h
                    rcases hnum : matchNumber (c :: s') with _ | ⟨lex, r2⟩
                    · rw [hnum] at h; dsimp only at h
                      by_cases h7 : nanLit.isPrefixOf (c :: s')
                      · rw [if_pos h7] at h
                        simp only [Option.some.injEq, Prod.mk.injEq] at h
                        obtain ⟨rfl, rfl⟩ := h
                        exact sufBy_drop_of_isPrefixOf (by simp [nanLit]) h7
                      · rw [if_neg h7] at h
                        by_cases h8 : infLit.isPrefixOf (c :: s')
                        · rw [if_pos h8] at h
                          simp only [Option.some.injEq, Prod.mk.injEq] at h
                          obtain ⟨rfl, rfl⟩ := h
                          exact sufBy_drop_of_isPrefixOf (by simp [infLit]) h8
                        · rw [if_neg h8] at h
                          by_cases h9 : ninfLit.isPrefixOf (c :: s')
                          · rw [if_pos h9] at h
                            simp only [Option.some.injEq, Prod.mk.injEq] at h
                            obtain ⟨rfl, rfl⟩ := h
                            exact sufBy_drop_of_isPrefixOf (by simp [ninfLit]) h9
                          · rw [if_neg h9] at h; simp at h
                    · rw [hnum] at h; dsimp only at h
                      simp only [Option.some.injEq, Prod.mk.injEq] at h
                      obtain ⟨rfl, rfl⟩ := h
                      exact matchNumber_sufBy hnum
    · intro st s ms r h
      match f, h with
      | f, h =>
      simp only [parseMembers] at h
      rcases hscan : scanStr st s with _ | ⟨k, s1⟩
      · rw [hscan] at h; simp at h
      · rw [hscan] at h; dsimp only at h
        rcases hsw1 : skipWs s1 with _ | ⟨c, s2⟩
        · rw [hsw1] at h; simp at h
        · rw [hsw1] at h; dsimp only at h
          by_cases hc : c = ':'
          · rw [if_pos hc] at h
            rcases hv : scanOnce f st (skipWs s2) with _ | ⟨v, s3⟩
            · rw [hv] at h; simp at h
            · rw [hv] at h; dsimp only at h
              rcases hsw3 : skipWs s3 with _ | ⟨d, s4⟩
              · rw [hsw3] at h; simp at h
              · rw [hsw3] at h; dsimp only at h
                have base : SufBy s s4 :=
                  (((scanStr_sufBy hscan).trans (sufBy_skip_cons hsw1)).trans_suf
                    (suf_skipWs s2)).trans ((ihS hv).trans (sufBy_skip_cons hsw3))
                by_cases hd : d = '}'
                · rw [if_pos hd] at h
                  simp only [Option.some.injEq, Prod.mk.injEq] at h
                  obtain ⟨rfl, rfl⟩ := h
                  exact base
                · rw [if_neg hd] at h
                  by_cases hcomma : d = ','
                  · rw [if_pos hcomma] at h
                    rcases hsw4 : skipWs s4 with _ | ⟨e, s5⟩
                    · rw [hsw4] at h; simp at h
                    · rw [hsw4] at h; dsimp only at h
                      by_cases he : e = '"'
                      · rw [if_pos he] at h
                        rcases hpm : parseMembers f st s5 with _ | ⟨ms', s6⟩
                        · rw [hpm] at h; simp at h
                        · rw [hpm] at h; dsimp only at h
                          simp only [Option.some.injEq, Prod.mk.injEq] at h
                          obtain ⟨rfl, rfl⟩ := h
                          exact (base.trans (sufBy_skip_cons hsw4)).trans (ihM hpm)
                      · rw [if_neg he] at h; simp at h
                  · rw [if_neg hcomma] at h; simp at h
          · rw [if_neg hc] at h; simp at h
    · intro st s vs r h
      simp only [parseElems] at h
      rcases hv : scanOnce f st s with _ | ⟨v, s1⟩
      · rw [hv] at h; simp at h
      · rw [hv] at h; dsimp only at h
        rcases hsw1 : skipWs s1 with _ | ⟨d, s2⟩
        · rw [hsw1] at h; simp at h
        · rw [hsw1] at h; dsimp only at h
          by_cases hd : d = ']'
          · rw [if_pos hd] at h
            simp only [Option.some.injEq, Prod.mk.injEq] at h
            obtain ⟨rfl, rfl⟩ := h
            exact (ihS hv).trans (sufBy_skip_cons hsw1)
          · rw [if_neg hd] at h
            by_cases hcomma : d = ','
            · rw [if_pos hcomma] at h
              rcases hpe : parseElems f st (skipWs s2) with _ | ⟨vs', s3⟩
              · rw [hpe] at h; simp at h
              · rw [hpe] at h; dsimp only at h
                simp only [Option.some.injEq, Prod.mk.injEq] at h
                obtain ⟨rfl, rfl⟩ := h
                exact (((ihS hv).trans (sufBy_skip_cons hsw1)).trans_suf
                  (suf_skipWs s2)).trans (ihE hpe)
            · rw [if_neg hcomma] at h; simp at h

theorem scanOnce_sufBy {f : Nat} {st : Bool} {s : List Char} {v : JsonValue} {r : List Char}
    (h : scanOnce f st s = some (v, r)) : SufBy s r := (scanSufBundle f).1 h

theorem rawDecode_sufBy {b : List Char} {v : JsonValue} {r : List Char}
    (h : rawDecode b = some (v, r)) : SufBy b r := scanOnce_sufBy h

theorem rawDecode_length_lt {b : List Char} {v : JsonValue} {r : List Char}
    (h : rawDecode b = some (v, r)) : r.length < b.length := (rawDecode_sufBy h).length_lt

theorem scanMonoBundle : ∀ (f g : Nat), f ≤ g →
    (∀ {st : Bool} {s : List Char} {v : JsonValue} {r : List Char},
      scanOnce f st s = some (v, r) → scanOnce g st s = some (v, r)) ∧
    (∀ {st : Bool} {s : List Char} {ms : List (List Nat × JsonValue)} {r : List Char},
      parseMembers f st s = some (ms, r) → parseMembers g st s = some (ms, r)) ∧
    (∀ {st : Bool} {s : List Char} {vs : List JsonValue} {r : List Char},
      parseElems f st s = some (vs, r) → parseElems g st s = some (vs, r)) := by
  intro f
  induction f with
  | zero =>
    intro g hg
    refine ⟨?_, ?_, ?_⟩ <;> intro st s x r h <;>
      simp [scanOnce, parseMembers, parseElems] at h
  | succ f ih =>
    intro g hg
    match g, hg with
    | Nat.succ g, hg =>
    have hg' : f ≤ g := Nat.succ_le_succ_iff.mp hg
    obtain ⟨ihS, ihM, ihE⟩ := ih g hg'
    refine ⟨?_, ?_, ?_⟩
    · intro st s v r h
      match s with
      | [] => simp [scanOnce] at h
      | c :: s' =>
        simp only [scanOnce] at h ⊢
        by_cases h1 : c = '"'
        · rw [if_pos h1] at h ⊢; exact h
        · rw [if_neg h1] at h ⊢
          by_cases h2 : c = '{'
          · rw [if_pos h2] at h ⊢
            rcases hsw : skipWs s' with _ | ⟨d, r2⟩
            · rw [hsw] at h; simp at h
            · rw [hsw] at h; dsimp only at h ⊢
              by_cases hd : d = '}'
              · rw [if_pos hd] at h ⊢; exact h
              · rw [if_neg hd] at h ⊢
                by_cases hq : d = '"'
                · rw [if_pos hq] at h ⊢
                  rcases hpm : parseMembers f st r2 with _ | ⟨ms, r3⟩
                  · rw [hpm] at h; simp at h
                  · rw [hpm] at h; rw [ihM hpm]; exact h
                · rw [if_neg hq] at h; simp at h
          · rw [if_neg h2] at h ⊢
            by_cases h3 : c = '['
            · rw [if_pos h3] at h ⊢
              rcases hsw : skipWs s' with _ | ⟨d, r2⟩
              · rw [hsw] at h; simp at h
              · rw [hsw] at h; dsimp only at h ⊢
                by_cases hd : d = ']'
                · rw [if_pos hd] at h ⊢; exact h
                · rw [if_neg hd] at h ⊢
                  rcases hpe : parseElems f st (d :: r2) with _ | ⟨vs, r3⟩
                  · rw [hpe] at h; simp at h
                  · rw [hpe] at h; rw [ihE hpe]; exact h
            · rw [if_neg h3] at h ⊢
              by_cases h4 : nullLit.isPrefixOf (c :: s')
              · rw [if_pos h4] at h ⊢; exact h
              · rw [if_neg h4] at h ⊢
                by_cases h5 : trueLit.isPrefixOf (c :: s')
                · rw [if_pos h5] at h ⊢; exact h
                · rw [if_neg h5] at h ⊢
                  by_cases h6 : falseLit.isPrefixOf (c :: s')
                  · rw [if_pos h6] at h ⊢; exact h
                  · rw [if_neg h6] at h ⊢; exact h
    · intro st s ms r h
      simp only [parseMembers] at h ⊢
      rcases hscan : scanStr st s with _ | ⟨k, s1⟩
      · rw [hscan] at h; simp at h
      · rw [hscan] at h; dsimp only at h ⊢
        rcases hsw1 : skipWs s1 with _ | ⟨c, s2⟩
        · rw [hsw1] at h; simp at h
        · rw [hsw1] at h; dsimp only at h ⊢
          by_cases hc : c = ':'
          · rw [if_pos hc] at h ⊢
            rcases hv : scanOnce f st (skipWs s2) with _ | ⟨v, s3⟩
            · rw [hv] at h; simp at h
            · rw [hv] at h; rw [ihS hv]; dsimp only at h ⊢
              rcases hsw3 : skipWs s3 with _ | ⟨d, s4⟩
              · rw [hsw3] at h; simp at h
              · rw [hsw3] at h; dsimp only at h ⊢
                by_cases hd : d = '}'
                · rw [if_pos hd] at h ⊢; exact h
                · rw [if_neg hd] at h ⊢
                  by_cases hcomma : d = ','
                  · rw [if_pos hcomma] at h ⊢
                    rcases hsw4 : skipWs s4 with _ | ⟨e, s5⟩
                    · rw [hsw4] at h; simp at h
                    · rw [hsw4] at h; dsimp only at h ⊢
                      by_cases he : e = '"'
                      · rw [if_pos he] at h ⊢
                        rcases hpm : parseMembers f st s5 with _ | ⟨ms', s6⟩
                        · rw [hpm] at h; simp at h
                        · rw [hpm] at h; rw [ihM hpm]; exact h
                      · rw [if_neg he] at h; simp at h
                  · rw [if_neg hcomma] at h; simp at h
          · rw [if_neg hc] at h; simp at h
    · intro st s vs r h
      simp only [parseElems] at h ⊢
      rcases hv : scanOnce f st s with _ | ⟨v, s1⟩
      · rw [hv] at h; simp at h
      · rw [hv] at h; rw [ihS hv]; dsimp only at h ⊢
        rcases hsw1 : skipWs s1 with _ | ⟨d, s2⟩
        · rw [hsw1] at h; simp at h
        · rw [hsw1] at h; dsimp only at h ⊢
          by_cases hd : d = ']'
          · rw [if_pos hd] at h ⊢; exact h
          · rw [if_neg hd] at h ⊢
            by_cases hcomma : d = ','
            · rw [if_pos hcomma] at h ⊢
              rcases hpe : parseElems f st (skipWs s2) with _ | ⟨vs', s3⟩
              · rw [hpe] at h; simp at h
              · rw [hpe] at h; rw [ihE hpe]; exact h
            · rw [if_neg hcomma] at h; simp at h

theorem scanOnce_mono {f g : Nat} (hfg : f ≤ g) {st : Bool} {s : List Char}
    {v : JsonValue} {r : List Char} (h : scanOnce f st s = some (v, r)) :
    scanOnce g st s = some (v, r) := (scanMonoBundle f g hfg).1 h

/-! ### Extension lemmas: a successful parse is unchanged by appending
more input, provided (for numbers) the character after the parse cannot
extend the number lexeme. -/

theorem dropWhile_app {p : Char → Bool} {s : List Char} (h : s.dropWhile p ≠ []) (t : List Char) :
    (s ++ t).dropWhile p = s.dropWhile p ++ t := by
  rw [List.dropWhile_append]
  simp only [List.isEmpty_iff]
  rw [if_neg h]

theorem takeWhile_app {p : Char → Bool} {s : List Char} (h : s.dropWhile p ≠ []) (t : List Char) :
    (s ++ t).takeWhile p = s.takeWhile p := by
  rw [List.takeWhile_append]
  have hlen : (s.takeWhile p).length ≠ s.length := by
    intro hlen
    have := congrArg List.length (List.takeWhile_append_dropWhile (p := p) (l := s))
    simp only [List.length_append] at this
    have : (s.dropWhile p).length = 0 := by omega
    exact h (List.length_eq_zero.mp this)
  rw [if_neg hlen]

theorem skipWs_app {s : List Char} (h : skipWs s ≠ []) (t : List Char) :
    skipWs (s ++ t) = skipWs s ++ t := dropWhile_app h t

theorem lowPair_app_some {r3 : List Char} {m : Nat} {r4 : List Char} (t : List Char)
    (h : lowPair r3 = some (m, r4)) : lowPair (r3 ++ t) = some (m, r4 ++ t) := by
  unfold lowPair at h ⊢
  match r3 with
  | [] => simp at h
  | [e2] => simp at h
  | e2 :: u2 :: rest =>
    simp only [List.cons_append]
    dsimp only at h ⊢
    by_cases hc : e2 = '\\' ∧ u2 = 'u'
    · rw [if_pos hc] at h ⊢
      match rest with
      | [] => simp at h
      | [g1] => simp at h
      | [g1, g2] => simp at h
      | [g1, g2, g3] => simp at h
      | g1 :: g2 :: g3 :: g4 :: r4' =>
        simp only [List.cons_append]
        dsimp only at h ⊢
        rcases hx : hex4 g1 g2 g3 g4 with _ | n
        · rw [hx] at h; simp at h
        · rw [hx] at h
          dsimp only at h ⊢
          by_cases hr : 0xDC00 ≤ n ∧ n ≤ 0xDFFF
          · rw [if_pos hr] at h ⊢
            simp only [Option.some.injEq, Prod.mk.injEq] at h
            obtain ⟨rfl, rfl⟩ := h
            rfl
          · rw [if_neg hr] at h; simp at h
    · rw [if_neg hc] at h ⊢
      simp at h

theorem scanStrF_single {f : Nat} {st : Bool} {a : Char} {x : List Nat × List Char}
    (hsc : scanStrF f st [a] = some x) : a = '"' := by
  match f with
  | 0 => simp [scanStrF] at hsc
  | Nat.succ f =>
    simp only [scanStrF] at hsc
    by_cases hq : a = '"'
    · exact hq
    · rw [if_neg hq] at hsc
      by_cases hb : a = '\\'
      · rw [if_pos hb] at hsc; simp at hsc
      · rw [if_neg hb] at hsc
        by_cases hctl : st = true ∧ a.toNat < 0x20
        · rw [if_pos hctl] at hsc; simp at hsc
        · rw [if_neg hctl] at hsc
          rw [scanStrF_nil] at hsc; simp at hsc

theorem scanStrF_bs_u {f : Nat} {st : Bool} {bs : List Char} {x : List Nat × List Char}
    (hsc : scanStrF f st ('\\' :: 'u' :: bs) = some x) :
    ∃ h1 h2 h3 h4 r' n, bs = h1 :: h2 :: h3 :: h4 :: r' ∧ hex4 h1 h2 h3 h4 = some n := by
  match f with
  | 0 => simp [scanStrF] at hsc
  | Nat.succ f =>
    simp only [scanStrF] at hsc
    simp only [if_true, show ('\\' : Char) = '"' ↔ False by simp, if_false] at hsc
    match bs with
    | [] => simp at hsc
    | [h1] => simp at hsc
    | [h1, h2] => simp at hsc
    | [h1, h2, h3] => simp at hsc
    | h1 :: h2 :: h3 :: h4 :: r' =>
      dsimp only at hsc
      rcases hx : hex4 h1 h2 h3 h4 with _ | n
      · rw [hx] at hsc; simp at hsc
      · exact ⟨h1, h2, h3, h4, r', n, rfl, hx⟩

theorem lowPair_none_app {f : Nat} {st : Bool} {r3 : List Char} {x : List Nat × List Char}
    (hsc : scanStrF f st r3 = some x) (h : lowPair r3 = none) (t : List Char) :
    lowPair (r3 ++ t) = none := by
  match r3 with
  | [] => rw [scanStrF_nil] at hsc; simp at hsc
  | [a] =>
    have ha : a = '"' := scanStrF_single hsc
    subst ha
    match t with
    | [] => rfl
    | u :: t' =>
      show lowPair ('"' :: u :: t') = none
      unfold lowPair
      dsimp only
      rw [if_neg (by simp)]
  | a :: b :: bs =>
    by_cases hab : a = '\\' ∧ b = 'u'
    · obtain ⟨rfl, rfl⟩ := hab
      obtain ⟨h1, h2, h3, h4, r', n, rfl, hx⟩ := scanStrF_bs_u hsc
      unfold lowPair at h ⊢
      simp only [List.cons_append] at h ⊢
      rw [hx] at h ⊢
      rw [if_pos ⟨trivial, trivial⟩] at h ⊢
      dsimp only at h ⊢
      by_cases hr : 0xDC00 ≤ n ∧ n ≤ 0xDFFF
      · rw [if_pos hr] at h; simp at h
      · rw [if_neg hr]
    · unfold lowPair
      simp only [List.cons_append]
      rw [if_neg hab]

theorem scanStrF_ext : ∀ (f : Nat) {st : Bool} {s : List Char} {cs : List Nat} {r : List Char}
    (t : List Char), scanStrF f st s = some (cs, r) → scanStrF f st (s ++ t) = some (cs, r ++ t) := by
  intro f
  induction f with
  | zero => intro st s cs r t h; simp [scanStrF] at h
  | succ f ih =>
    intro st s cs r t h
    match s with
    | [] => rw [scanStrF_nil] at h; simp at h
    | c :: s' =>
      simp only [List.cons_append]
      simp only [scanStrF] at h ⊢
      by_cases hq : c = '"'
      · rw [if_pos hq] at h ⊢
        simp only [Option.some.injEq, Prod.mk.injEq] at h
        obtain ⟨rfl, rfl⟩ := h
        rfl
      · rw [if_neg hq] at h ⊢
        by_cases hb : c = '\\'
        · rw [if_pos hb] at h ⊢
          match s' with
          | [] => simp at h
          | e :: r2 =>
            simp only [List.cons_append]
            dsimp only at h ⊢
            by_cases hu : e = 'u'
            · rw [if_pos hu] at h ⊢
              match r2 with
              | [] => simp at h
              | [h1] => simp at h
              | [h1, h2] => simp at h
              | [h1, h2, h3] => simp at h
              | h1 :: h2 :: h3 :: h4 :: r3 =>
                simp only [List.cons_append]
                dsimp only at h ⊢
                rcases hx : hex4 h1 h2 h3 h4 with _ | n
                · rw [hx] at h; simp at h
                · rw [hx] at h
                  dsimp only at h ⊢
                  by_cases hs : 0xD800 ≤ n ∧ n < 0xDC00
                  · rw [if_pos hs] at h ⊢
                    rcases hlp : lowPair r3 with _ | ⟨m, r4⟩
                    · rw [hlp] at h
                      dsimp only at h
                      simp only [Option.map_eq_some'] at h
                      obtain ⟨⟨cs3, r3'⟩, hrec, hco⟩ := h
                      rw [lowPair_none_app hrec hlp t]
                      dsimp only
                      rw [ih t hrec]
                      simp only [Option.map_some', Option.some.injEq, Prod.mk.injEq] at hco ⊢
                      exact ⟨hco.1, by rw [← hco.2]⟩
                    · rw [hlp] at h
                      dsimp only at h
                      simp only [Option.map_eq_some'] at h
                      obtain ⟨⟨cs4, r4'⟩, hrec, hco⟩ := h
                      rw [lowPair_app_some t hlp]
                      dsimp only
                      rw [ih t hrec]
                      simp only [Option.map_some', Option.some.injEq, Prod.mk.injEq] at hco ⊢
                      exact ⟨hco.1, by rw [← hco.2]⟩
                  · rw [if_neg hs] at h ⊢
                    simp only [Option.map_eq_some'] at h
                    obtain ⟨⟨cs3, r3'⟩, hrec, hco⟩ := h
                    rw [ih t hrec]
                    simp only [Option.map_some', Option.some.injEq, Prod.mk.injEq] at hco ⊢
                    exact ⟨hco.1, by rw [← hco.2]⟩
            · rw [if_neg hu] at h ⊢
              rcases hm : escMap e with _ | ch
              · rw [hm] at h; simp at h
              · rw [hm] at h
                dsimp only at h ⊢
                simp only [Option.map_eq_some'] at h
                obtain ⟨⟨cs2, r2'⟩, hrec, hco⟩ := h
                rw [ih t hrec]
                simp only [Option.map_some', Option.some.injEq, Prod.mk.injEq] at hco ⊢
                exact ⟨hco.1, by rw [← hco.2]⟩
        · rw [if_neg hb] at h ⊢
          by_cases hctl : st = true ∧ c.toNat < 0x20
          · rw [if_pos hctl] at h; simp at h
          · rw [if_neg hctl] at h ⊢
            simp only [Option.map_eq_some'] at h
            obtain ⟨⟨cs', r''⟩, hrec, hco⟩ := h
            rw [ih t hrec]
            simp only [Option.map_some', Option.some.injEq, Prod.mk.injEq] at hco ⊢
            exact ⟨hco.1, by rw [← hco.2]⟩

theorem scanStrF_mono : ∀ {f g : Nat}, f ≤ g →
    ∀ {st : Bool} {s : List Char} {cs : List Nat} {r : List Char},
    scanStrF f st s = some (cs, r) → scanStrF g st s = some (cs, r) := by
  intro f
  induction f with
  | zero => intro g hg st s cs r h; simp [scanStrF] at h
  | succ f ih =>
    intro g hg st s cs r h
    match g, hg with
    | Nat.succ g, hg =>
    have hg' : f ≤ g := Nat.succ_le_succ_iff.mp hg
    match s with
    | [] => rw [scanStrF_nil] at h; simp at h
    | c :: s' =>
      simp only [scanStrF] at h ⊢
      by_cases hq : c = '"'
      · rw [if_pos hq] at h ⊢; exact h
      · rw [if_neg hq] at h ⊢
        by_cases hb : c = '\\'
        · rw [if_pos hb] at h ⊢
          match s' with
          | [] => simp at h
          | e :: r2 =>
            dsimp only at h ⊢
            by_cases hu : e = 'u'
            · rw [if_pos hu] at h ⊢
              match r2 with
              | [] => simp at h
              | [h1] => simp at h
              | [h1, h2] => simp at h
              | [h1, h2, h3] => simp at h
              | h1 :: h2 :: h3 :: h4 :: r3 =>
                dsimp only at h ⊢
                rcases hx : hex4 h1 h2 h3 h4 with _ | n
                · rw [hx] at h; simp at h
                · rw [hx] at h
                  dsimp only at h ⊢
                  by_cases hs : 0xD800 ≤ n ∧ n < 0xDC00
                  · rw [if_pos hs] at h ⊢
                    rcases hlp : lowPair r3 with _ | ⟨m, r4⟩
                    · rw [hlp] at h
                      dsimp only at h ⊢
                      simp only [Option.map_eq_some'] at h ⊢
                      obtain ⟨p, hrec, hco⟩ := h
                      exact ⟨p, ih hg' hrec, hco⟩
                    · rw [hlp] at h
                      dsimp only at h ⊢
                      simp only [Option.map_eq_some'] at h ⊢
                      obtain ⟨p, hrec, hco⟩ := h
                      exact ⟨p, ih hg' hrec, hco⟩
                  · rw [if_neg hs] at h ⊢
                    simp only [Option.map_eq_some'] at h ⊢
                    obtain ⟨p, hrec, hco⟩ := h
                    exact ⟨p, ih hg' hrec, hco⟩
            · rw [if_neg hu] at h ⊢
              rcases hm : escMap e with _ | ch
              · rw [hm] at h; simp at h
              · rw [hm] at h
                dsimp only at h ⊢
                simp only [Option.map_eq_some'] at h ⊢
                obtain ⟨p, hrec, hco⟩ := h
                exact ⟨p, ih hg' hrec, hco⟩
        · rw [if_neg hb] at h ⊢
          by_cases hctl : st = true ∧ c.toNat < 0x20
          · rw [if_pos hctl] at h; simp at h
          · rw [if_neg hctl] at h ⊢
            simp only [Option.map_eq_some'] at h ⊢
            obtain ⟨p, hrec, hco⟩ := h
            exact ⟨p, ih hg' hrec, hco⟩

theorem scanStr_ext {st : Bool} {s : List Char} {cs : List Nat} {r : List Char} (t : List Char)
    (h : scanStr st s = some (cs, r)) : scanStr st (s ++ t) = some (cs, r ++ t) := by
  unfold scanStr at h ⊢
  have h1 : scanStrF ((s ++ t).length + 1) st s = some (cs, r) :=
    scanStrF_mono (by simp) h
  exact scanStrF_ext _ t h1

/-- The character after a number lexeme cannot extend the lexeme: there
is a next character and it is not `.`, `e`, or `E`. (CPython's
`NUMBER_RE` would otherwise look past the end of the current buffer.) -/
def numSafe : List Char → Prop
  | [] => False
  | c :: _ => c ≠ '.' ∧ c ≠ 'e' ∧ c ≠ 'E'

theorem intPart_ext {x ip s2 : List Char} (t : List Char)
    (h : intPart x = some (ip, s2)) (hne : s2 ≠ []) :
    intPart (x ++ t) = some (ip, s2 ++ t) := by
  match x with
  | [] => simp [intPart] at h
  | c :: rest =>
    simp only [List.cons_append, intPart] at h ⊢
    by_cases h0 : c = '0'
    · rw [if_pos h0] at h ⊢
      simp only [Option.some.injEq, Prod.mk.injEq] at h
      obtain ⟨rfl, rfl⟩ := h
      rfl
    · rw [if_neg h0] at h ⊢
      by_cases h19 : '1' ≤ c ∧ c ≤ '9'
      · rw [if_pos h19] at h ⊢
        simp only [Option.some.injEq, Prod.mk.injEq] at h
        obtain ⟨rfl, rfl⟩ := h
        rw [takeWhile_app hne t, dropWhile_app hne t]
      · rw [if_neg h19] at h; simp at h

theorem fracPart_nil : fracPart [] = ([], []) := rfl

theorem expPart_nil : expPart [] = ([], []) := rfl

theorem fracPart_ext {x f1 r : List Char} (t : List Char)
    (h : fracPart x = (f1, r)) (hne : r ≠ [])
    (hsafe : ¬(f1 = [] ∧ ∃ rest, x = '.' :: rest)) :
    fracPart (x ++ t) = (f1, r ++ t) := by
  match x with
  | [] =>
    rw [fracPart_nil] at h
    obtain ⟨rfl, rfl⟩ := Prod.mk.injEq .. ▸ h
    exact absurd rfl hne
  | c :: rest =>
    simp only [List.cons_append, fracPart] at h ⊢
    by_cases hd : c = '.'
    · rw [if_pos hd] at h ⊢
      by_cases hds : rest.takeWhile Char.isDigit = []
      · rw [if_pos hds] at h
        simp only [Prod.mk.injEq] at h
        exact absurd ⟨h.1.symm, rest, by rw [hd]⟩ hsafe
      · rw [if_neg hds] at h
        simp only [Prod.mk.injEq] at h
        obtain ⟨rfl, rfl⟩ := h
        rw [takeWhile_app hne t, dropWhile_app hne t]
        rw [if_neg hds]
    · rw [if_neg hd] at h ⊢
      simp only [Prod.mk.injEq] at h
      obtain ⟨rfl, rfl⟩ := h
      rfl

theorem expPart_ext {x e1 r : List Char} (t : List Char)
    (h : expPart x = (e1, r)) (hne : r ≠ [])
    (hsafe : ¬(e1 = [] ∧ ∃ c rest, x = c :: rest ∧ (c = 'e' ∨ c = 'E'))) :
    expPart (x ++ t) = (e1, r ++ t) := by
  match x with
  | [] =>
    rw [expPart_nil] at h
    obtain ⟨rfl, rfl⟩ := Prod.mk.injEq .. ▸ h
    exact absurd rfl hne
  | c :: rest =>
    simp only [List.cons_append, expPart] at h ⊢
    by_cases hd : c = 'e' ∨ c = 'E'
    · rw [if_pos hd] at h ⊢
      match rest with
      | [] =>
        dsimp only at h
        simp only [List.takeWhile_nil, reduceIte] at h
        simp only [Prod.mk.injEq] at h
        exact absurd ⟨h.1.symm, c, [], rfl, hd⟩ hsafe
      | c2 :: r2 =>
        simp only [List.cons_append]
        dsimp only at h ⊢
        by_cases hsg : c2 = '+' ∨ c2 = '-'
        · rw [if_pos hsg] at h ⊢
          dsimp only at h ⊢
          by_cases hds : r2.takeWhile Char.isDigit = []
          · rw [if_pos hds] at h
            simp only [Prod.mk.injEq] at h
            exact absurd ⟨h.1.symm, c, c2 :: r2, by simp [h.2.symm], hd⟩ hsafe
          · rw [if_neg hds] at h
            simp only [Prod.mk.injEq] at h
            obtain ⟨rfl, rfl⟩ := h
            rw [takeWhile_app hne t, dropWhile_app hne t]
            rw [if_neg hds]
        · rw [if_neg hsg] at h ⊢
          dsimp only at h ⊢
          by_cases hds : (c2 :: r2).takeWhile Char.isDigit = []
          · rw [if_pos hds] at h
            simp only [Prod.mk.injEq] at h
            exact absurd ⟨h.1.symm, c, c2 :: r2, by simp [h.2.symm], hd⟩ hsafe
          · rw [if_neg hds] at h
            simp only [Prod.mk.injEq] at h
            obtain ⟨rfl, rfl⟩ := h
            rw [← List.cons_append, takeWhile_app hne t, dropWhile_app hne t, if_neg hds]
    · rw [if_neg hd] at h ⊢
      simp only [Prod.mk.injEq] at h
      obtain ⟨rfl, rfl⟩ := h
      rfl

theorem numSafe_dest {r : List Char} (h : numSafe r) :
    ∃ c rr, r = c :: rr ∧ c ≠ '.' ∧ c ≠ 'e' ∧ c ≠ 'E' := by
  match r with
  | [] => exact absurd h (by simp [numSafe])
  | c :: rr => exact ⟨c, rr, rfl, h.1, h.2.1, h.2.2⟩

theorem fracPart_empty_eq {x r : List Char} (h : fracPart x = ([], r)) : x = r := by
  have h2 := fracPart_eq x
  rw [h] at h2
  simpa using h2.symm

theorem expPart_empty_eq {x r : List Char} (h : expPart x = ([], r)) : x = r := by
  have h2 := expPart_eq x
  rw [h] at h2
  simpa using h2.symm

theorem expPart_rest_ne {x e1 r : List Char} (h : expPart x = (e1, r)) (hr : r ≠ []) :
    x ≠ [] := by
  intro h0
  subst h0
  rw [expPart_nil] at h
  exact hr ((Prod.mk.injEq .. ▸ h).2).symm

theorem expPart_head_ee {x e1 r : List Char} (h : expPart x = (e1, r)) (he : e1 ≠ []) :
    ∃ c rest, x = c :: rest ∧ (c = 'e' ∨ c = 'E') := by
  match x with
  | [] =>
    rw [expPart_nil] at h
    exact absurd ((Prod.mk.injEq .. ▸ h).1).symm he
  | c :: rest =>
    simp only [expPart] at h
    by_cases hd : c = 'e' ∨ c = 'E'
    · exact ⟨c, rest, rfl, hd⟩
    · rw [if_neg hd] at h
      exact absurd ((Prod.mk.injEq .. ▸ h).1).symm he

theorem matchNumBody_ext {x sg1 lex r : List Char} (t : List Char)
    (h : (match intPart x with
      | none => none
      | some (ip, s2) =>
        some (sg1 ++ ip ++ (fracPart s2).1 ++ (expPart (fracPart s2).2).1,
          (expPart (fracPart s2).2).2)) = some (lex, r))
    (hsafe : numSafe r) :
    (match intPart (x ++ t) with
      | none => none
      | some (ip, s2) =>
        some (sg1 ++ ip ++ (fracPart s2).1 ++ (expPart (fracPart s2).2).1,
          (expPart (fracPart s2).2).2)) = some (lex, r ++ t) := by
  rcases hip : intPart x with _ | ⟨ip, s2⟩
  · rw [hip] at h; simp at h
  · rw [hip] at h
    dsimp only at h
    simp only [Option.some.injEq, Prod.mk.injEq] at h
    obtain ⟨hlex, hrr⟩ := h
    obtain ⟨hc, rr, hrEq, hd1, hd2, hd3⟩ := numSafe_dest hsafe
    have hrne : (expPart (fracPart s2).2).2 ≠ [] := by rw [hrr, hrEq]; simp
    have hfp2ne : (fracPart s2).2 ≠ [] :=
      expPart_rest_ne (Prod.mk.eta (p := expPart (fracPart s2).2)).symm hrne
    have hs2ne : s2 ≠ [] := by
      intro h0
      rw [h0, fracPart_nil] at hfp2ne
      exact hfp2ne rfl
    have hepsafe : ¬((expPart (fracPart s2).2).1 = [] ∧
        ∃ c rest, (fracPart s2).2 = c :: rest ∧ (c = 'e' ∨ c = 'E')) := by
      rintro ⟨he1, c', rest', hceq, hcee⟩
      have hx : (fracPart s2).2 = (expPart (fracPart s2).2).2 :=
        expPart_empty_eq (by rw [← he1])
      have h1 : hc :: rr = c' :: rest' :=
        ((hrEq.symm.trans hrr.symm).trans hx.symm).trans hceq
      obtain ⟨h1a, -⟩ := List.cons.injEq .. ▸ h1
      rcases hcee with h'' | h''
      · exact hd2 (h1a.trans h'')
      · exact hd3 (h1a.trans h'')
    have hextexp := expPart_ext t (Prod.mk.eta (p := expPart (fracPart s2).2)).symm hrne hepsafe
    have hfpsafe : ¬((fracPart s2).1 = [] ∧ ∃ rest, s2 = '.' :: rest) := by
      rintro ⟨hf1, rest', hseq⟩
      have hfp2eq : s2 = (fracPart s2).2 :=
        fracPart_empty_eq (by rw [← hf1])
      by_cases he1 : (expPart (fracPart s2).2).1 = []
      · have hx : (fracPart s2).2 = (expPart (fracPart s2).2).2 :=
          expPart_empty_eq (by rw [← he1])
        have h1 : '.' :: rest' = hc :: rr :=
          hseq.symm.trans (hfp2eq.trans (hx.trans (hrr.trans hrEq)))
        obtain ⟨h1a, -⟩ := List.cons.injEq .. ▸ h1
        exact hd1 h1a.symm
      · obtain ⟨c', rest'', hceq, hcee⟩ :=
          expPart_head_ee (Prod.mk.eta (p := expPart (fracPart s2).2)).symm he1
        have h1 : '.' :: rest' = c' :: rest'' :=
          hseq.symm.trans (hfp2eq.trans hceq)
        obtain ⟨h1a, -⟩ := List.cons.injEq .. ▸ h1
        rcases hcee with h'' | h'' <;> rw [← h1a] at h'' <;> exact absurd h'' (by decide)
    have hextfrac := fracPart_ext t (Prod.mk.eta (p := fracPart s2)).symm hfp2ne hfpsafe
    have hextint := intPart_ext t hip hs2ne
    rw [hextint]
    dsimp only
    rw [hextfrac]
    dsimp only
    rw [hextexp]
    dsimp only
    rw [hlex, hrr]

theorem matchNumber_ext {s lex r : List Char} (t : List Char)
    (h : matchNumber s = some (lex, r)) (hsafe : numSafe r) :
    matchNumber (s ++ t) = some (lex, r ++ t) := by
  unfold matchNumber at h ⊢
  dsimp only at h ⊢
  match s with
  | [] => simp [intPart] at h
  | c :: s0 =>
    simp only [List.cons_append]
    dsimp only at h ⊢
    by_cases hm : c = '-'
    · rw [if_pos hm] at h ⊢
      dsimp only at h ⊢
      exact matchNumBody_ext t h hsafe
    · rw [if_neg hm] at h ⊢
      dsimp only at h ⊢
      exact matchNumBody_ext (x := c :: s0) t h hsafe

theorem litPre_app {p s : List Char} (t : List Char) (h : p.isPrefixOf s) :
    p.isPrefixOf (s ++ t) := by
  rw [List.isPrefixOf_iff_prefix] at h ⊢
  exact h.trans ⟨t, rfl⟩

theorem litPre_false {x c : Char} (h : c ≠ x) (xs zs : List Char) :
    ¬(x :: xs).isPrefixOf (c :: zs) := by
  rw [List.isPrefixOf_iff_prefix, List.cons_prefix_cons]
  rintro ⟨rfl, -⟩
  exact h rfl

theorem drop_app_of_pre {p s : List Char} (t : List Char) (h : p.isPrefixOf s) (n : Nat)
    (hn : n ≤ p.length) : (s ++ t).drop n = s.drop n ++ t := by
  rw [List.isPrefixOf_iff_prefix] at h
  exact List.drop_append_of_le_length (le_trans hn h.length_le)

theorem intPart_head_none {c : Char} (h : ¬(c = '0' ∨ ('1' ≤ c ∧ c ≤ '9'))) (zs : List Char) :
    intPart (c :: zs) = none := by
  have h1 : c ≠ '0' := fun he => h (Or.inl he)
  have h2 : ¬('1' ≤ c ∧ c ≤ '9') := fun he => h (Or.inr he)
  simp only [intPart]
  rw [if_neg h1, if_neg h2]

theorem matchNumber_head_none {c : Char} (h1 : c ≠ '-')
    (h2 : ¬(c = '0' ∨ ('1' ≤ c ∧ c ≤ '9'))) (zs : List Char) :
    matchNumber (c :: zs) = none := by
  unfold matchNumber
  dsimp only
  rw [if_neg h1]
  dsimp only
  rw [intPart_head_none h2]

theorem matchNumber_neg_none {c : Char} (h2 : ¬(c = '0' ∨ ('1' ≤ c ∧ c ≤ '9'))) (zs : List Char) :
    matchNumber ('-' :: c :: zs) = none := by
  unfold matchNumber
  dsimp only
  rw [if_pos rfl]
  dsimp only
  rw [intPart_head_none h2]

theorem matchNumber_head {c : Char} {s0 lex r : List Char}
    (h : matchNumber (c :: s0) = some (lex, r)) :
    c = '-' ∨ c = '0' ∨ ('1' ≤ c ∧ c ≤ '9') := by
  by_cases h1 : c = '-'
  · exact Or.inl h1
  · by_cases h2 : c = '0' ∨ ('1' ≤ c ∧ c ≤ '9')
    · exact Or.inr h2
    · rw [matchNumber_head_none h1 h2] at h
      exact absurd h (by simp)

/-- Side condition for extending a successful `scanOnce`: when the value
is a number, the immediately following character must not be able to
extend the number lexeme. All other values are closed by a delimiter. -/
def extOk : JsonValue → List Char → Prop
  | .num _, r => numSafe r
  | _, _ => True

theorem extOk_of_skip {v : JsonValue} {s3 : List Char} {d : Char} {s4 : List Char}
    (hsw : skipWs s3 = d :: s4) (hd : d ≠ '.' ∧ d ≠ 'e' ∧ d ≠ 'E') : extOk v s3 := by
  match v with
  | .null | .bool _ | .str _ | .arr _ | .obj _ => trivial
  | .num lex =>
    show numSafe s3
    match s3 with
    | [] => rw [show skipWs [] = [] from rfl] at hsw; simp at hsw
    | c :: rest =>
      by_cases hws : isPyWs c
      · have hc : ((c = ' ' ∨ c = '\t') ∨ c = '\n') ∨ c = '\r' := by
          simpa [isPyWs] using hws
        rcases hc with ((rfl | rfl) | rfl) | rfl <;> exact ⟨by decide, by decide, by decide⟩
      · have : skipWs (c :: rest) = c :: rest := by
          simp [skipWs, List.dropWhile_cons, hws]
        rw [this] at hsw
        obtain ⟨rfl, -⟩ := List.cons.injEq .. ▸ hsw
        exact hd

theorem litPre_head {x c : Char} {xs zs : List Char} (h : (x :: xs).isPrefixOf (c :: zs)) :
    c = x := by
  rw [List.isPrefixOf_iff_prefix, List.cons_prefix_cons] at h
  exact h.1.symm

theorem nullPre_false {c : Char} (h : c ≠ 'n') (zs : List Char) :
    ¬nullLit.isPrefixOf (c :: zs) := litPre_false h _ _

theorem truePre_false {c : Char} (h : c ≠ 't') (zs : List Char) :
    ¬trueLit.isPrefixOf (c :: zs) := litPre_false h _ _

theorem falsePre_false {c : Char} (h : c ≠ 'f') (zs : List Char) :
    ¬falseLit.isPrefixOf (c :: zs) := litPre_false h _ _

theorem nanPre_false {c : Char} (h : c ≠ 'N') (zs : List Char) :
    ¬nanLit.isPrefixOf (c :: zs) := litPre_false h _ _

theorem infPre_false {c : Char} (h : c ≠ 'I') (zs : List Char) :
    ¬infLit.isPrefixOf (c :: zs) := litPre_false h _ _

theorem ninfPre_false {c : Char} (h : c ≠ '-') (zs : List Char) :
    ¬ninfLit.isPrefixOf (c :: zs) := litPre_false h _ _

theorem scanExtBundle : ∀ f : Nat,
    (∀ {st : Bool} {s : List Char} {v : JsonValue} {r : List Char} (t : List Char),
      scanOnce f st s = some (v, r) → extOk v r → scanOnce f st (s ++ t) = some (v, r ++ t)) ∧
    (∀ {st : Bool} {s : List Char} {ms : List (List Nat × JsonValue)} {r : List Char}
      (t : List Char),
      parseMembers f st s = some (ms, r) → parseMembers f st (s ++ t) = some (ms, r ++ t)) ∧
    (∀ {st : Bool} {s : List Char} {vs : List JsonValue} {r : List Char} (t : List Char),
      parseElems f st s = some (vs, r) → parseElems f st (s ++ t) = some (vs, r ++ t)) := by
  intro f
  induction f with
  | zero =>
    refine ⟨?_, ?_, ?_⟩ <;> intro st s x r t h <;>
      simp [scanOnce, parseMembers, parseElems] at h
  | succ f ih =>
    obtain ⟨ihS, ihM, ihE⟩ := ih
    refine ⟨?_, ?_, ?_⟩
    · intro st s v r t h hok
      match s with
      | [] => simp [scanOnce] at h
      | c :: s' =>
        simp only [List.cons_append]
        simp only [scanOnce] at h ⊢
        by_cases h1 : c = '"'
        · rw [if_pos h1] at h ⊢
          rcases hscan : scanStr st s' with _ | ⟨cs, r2⟩
          · rw [hscan] at h; simp at h
          · rw [hscan] at h; dsimp only at h
            simp only [Option.some.injEq, Prod.mk.injEq] at h
            obtain ⟨rfl, rfl⟩ := h
            rw [scanStr_ext t hscan]
        · rw [if_neg h1] at h ⊢
          by_cases h2 : c = '{'
          · rw [if_pos h2] at h ⊢
            rcases hsw : skipWs s' with _ | ⟨d, r2⟩
            · rw [hsw] at h; simp at h
            · rw [hsw] at h; dsimp only at h
              have hne : skipWs s' ≠ [] := by rw [hsw]; simp
              rw [skipWs_app hne t, hsw]
              simp only [List.cons_append]
              by_cases hd : d = '}'
              · rw [if_pos hd] at h ⊢
                simp only [Option.some.injEq, Prod.mk.injEq] at h
                obtain ⟨rfl, rfl⟩ := h
                rfl
              · rw [if_neg hd] at h ⊢
                by_cases hq : d = '"'
                · rw [if_pos hq] at h ⊢
                  rcases hpm : parseMembers f st r2 with _ | ⟨ms, r3⟩
                  · rw [hpm] at h; simp at h
                  · rw [hpm] at h; dsimp only at h
                    simp only [Option.some.injEq, Prod.mk.injEq] at h
                    obtain ⟨rfl, rfl⟩ := h
                    rw [ihM t hpm]
                · rw [if_neg hq] at h; simp at h
          · rw [if_neg h2] at h ⊢
            by_cases h3 : c = '['
            · rw [if_pos h3] at h ⊢
              rcases hsw : skipWs s' with _ | ⟨d, r2⟩
              · rw [hsw] at h; simp at h
              · rw [hsw] at h; dsimp only at h
                have hne : skipWs s' ≠ [] := by rw [hsw]; simp
                rw [skipWs_app hne t, hsw]
                simp only [List.cons_append]
                by_cases hd : d = ']'
                · rw [if_pos hd] at h ⊢
                  simp only [Option.some.injEq, Prod.mk.injEq] at h
                  obtain ⟨rfl, rfl⟩ := h
                  rfl
                · rw [if_neg hd] at h ⊢
                  rcases hpe : parseElems f st (d :: r2) with _ | ⟨vs, r3⟩
                  · rw [hpe] at h; simp at h
                  · rw [hpe] at h; dsimp only at h
                    simp only [Option.some.injEq, Prod.mk.injEq] at h
                    obtain ⟨rfl, rfl⟩ := h
                    have hext := ihE t hpe
                    rw [List.cons_append] at hext
                    rw [hext]
            · rw [if_neg h3] at h ⊢
              by_cases h4 : nullLit.isPrefixOf (c :: s')
              · rw [if_pos h4] at h
                simp only [Option.some.injEq, Prod.mk.injEq] at h
                obtain ⟨rfl, rfl⟩ := h
                have h4' := litPre_app t h4
                rw [List.cons_append] at h4'
                rw [if_pos h4']
                have hdrop := drop_app_of_pre t h4 4 (by simp [nullLit])
                rw [List.cons_append] at hdrop
                rw [hdrop]
              · rw [if_neg h4] at h
                by_cases h5 : trueLit.isPrefixOf (c :: s')
                · rw [if_pos h5] at h
                  simp only [Option.some.injEq, Prod.mk.injEq] at h
                  obtain ⟨rfl, rfl⟩ := h
                  have hcN : c = 't' := litPre_head h5
                  subst hcN
                  rw [if_neg (nullPre_false (by decide) _)]
                  have h5' := litPre_app t h5
                  rw [List.cons_append] at h5'
                  rw [if_pos h5']
                  have hdrop := drop_app_of_pre t h5 4 (by simp [trueLit])
                  rw [List.cons_append] at hdrop
                  rw [hdrop]
                · rw [if_neg h5] at h
                  by_cases h6 : falseLit.isPrefixOf (c :: s')
                  · rw [if_pos h6] at h
                    simp only [Option.some.injEq, Prod.mk.injEq] at h
                    obtain ⟨rfl, rfl⟩ := h
                    have hcN : c = 'f' := litPre_head h6
                    subst hcN
                    rw [if_neg (nullPre_false (by decide) _)]
                    rw [if_neg (truePre_false (by decide) _)]
                    have h6' := litPre_app t h6
                    rw [List.cons_append] at h6'
                    rw [if_pos h6']
                    have hdrop := drop_app_of_pre t h6 5 (by simp [falseLit])
                    rw [List.cons_append] at hdrop
                    rw [hdrop]
                  · rw [if_neg h6] at h
                    rcases hnum : matchNumber (c :: s') with _ | ⟨lex, r2⟩
                    · rw [hnum] at h; dsimp only at h
                      by_cases h7 : nanLit.isPrefixOf (c :: s')
                      · rw [if_pos h7] at h
                        simp only [Option.some.injEq, Prod.mk.injEq] at h
                        obtain ⟨rfl, rfl⟩ := h
                        have hcN : c = 'N' := litPre_head h7
                        subst hcN
                        rw [if_neg (nullPre_false (by decide) _)]
                        rw [if_neg (truePre_false (by decide) _)]
                        rw [if_neg (falsePre_false (by decide) _)]
                        rw [matchNumber_head_none (c := 'N') (by decide) (by decide) (s' ++ t)]
                        dsimp only
                        have h7' := litPre_app t h7
                        rw [List.cons_append] at h7'
                        rw [if_pos h7']
                        have hdrop := drop_app_of_pre t h7 3 (by simp [nanLit])
                        rw [List.cons_append] at hdrop
                        rw [hdrop]
                      · rw [if_neg h7] at h
                        by_cases h8 : infLit.isPrefixOf (c :: s')
                        · rw [if_pos h8] at h
                          simp only [Option.some.injEq, Prod.mk.injEq] at h
                          obtain ⟨rfl, rfl⟩ := h
                          have hcN : c = 'I' := litPre_head h8
                          subst hcN
                          rw [if_neg (nullPre_false (by decide) _)]
                          rw [if_neg (truePre_false (by decide) _)]
                          rw [if_neg (falsePre_false (by decide) _)]
                          rw [matchNumber_head_none (c := 'I') (by decide) (by decide) (s' ++ t)]
                          dsimp only
                          rw [if_neg (nanPre_false (by decide) _)]
                          have h8' := litPre_app t h8
                          rw [List.cons_append] at h8'
                          rw [if_pos h8']
                          have hdrop := drop_app_of_pre t h8 8 (by simp [infLit])
                          rw [List.cons_append] at hdrop
                          rw [hdrop]
                        · rw [if_neg h8] at h
                          by_cases h9 : ninfLit.isPrefixOf (c :: s')
                          · rw [if_pos h9] at h
                            simp only [Option.some.injEq, Prod.mk.injEq] at h
                            obtain ⟨rfl, rfl⟩ := h
                            have hcN : c = '-' := litPre_head h9
                            subst hcN
                            match s', h9 with
                            | d :: s'', h9 =>
                            have hd : d = 'I' := by
                              have h9' : (['I', 'n', 'f', 'i', 'n', 'i', 't',
                                  'y']).isPrefixOf (d :: s'') := by
                                have := List.isPrefixOf_iff_prefix.mp h9
                                rw [show ninfLit = '-' ::
                                  ['I', 'n', 'f', 'i', 'n', 'i', 't', 'y'] from rfl,
                                  List.cons_prefix_cons] at this
                                exact List.isPrefixOf_iff_prefix.mpr this.2
                              exact litPre_head h9'
                            subst hd
                            rw [if_neg (nullPre_false (by decide) _)]
                            rw [if_neg (truePre_false (by decide) _)]
                            rw [if_neg (falsePre_false (by decide) _)]
                            rw [show ('I' :: s'') ++ t = 'I' :: (s'' ++ t) from rfl,
                              matchNumber_neg_none (c := 'I') (by decide) (s'' ++ t)]
                            dsimp only
                            rw [if_neg (nanPre_false (by decide) _)]
                            rw [if_neg (infPre_false (by decide) _)]
                            have h9' := litPre_app t h9
                            rw [List.cons_append, List.cons_append] at h9'
                            rw [if_pos h9']
                            have hdrop := drop_app_of_pre t h9 9 (by simp [ninfLit])
                            rw [List.cons_append, List.cons_append] at hdrop
                            rw [hdrop]
                          · rw [if_neg h9] at h; simp at h
                    · rw [hnum] at h; dsimp only at h
                      simp only [Option.some.injEq, Prod.mk.injEq] at h
                      obtain ⟨rfl, rfl⟩ := h
                      have hsafe : numSafe r2 := hok
                      rcases matchNumber_head hnum with rfl | rfl | h19
                      · rw [if_neg (nullPre_false (by decide) _)]
                        rw [if_neg (truePre_false (by decide) _)]
                        rw [if_neg (falsePre_false (by decide) _)]
                        have hext := matchNumber_ext t hnum hsafe
                        rw [List.cons_append] at hext
                        rw [hext]
                      · rw [if_neg (nullPre_false (by decide) _)]
                        rw [if_neg (truePre_false (by decide) _)]
                        rw [if_neg (falsePre_false (by decide) _)]
                        have hext := matchNumber_ext t hnum hsafe
                        rw [List.cons_append] at hext
                        rw [hext]
                      · have hn : c ≠ 'n' := by
                          intro he; subst he; exact absurd h19 (by decide)
                        have ht' : c ≠ 't' := by
                          intro he; subst he; exact absurd h19 (by decide)
                        have hf : c ≠ 'f' := by
                          intro he; subst he; exact absurd h19 (by decide)
                        rw [if_neg (nullPre_false hn _)]
                        rw [if_neg (truePre_false ht' _)]
                        rw [if_neg (falsePre_false hf _)]
                        have hext := matchNumber_ext t hnum hsafe
                        rw [List.cons_append] at hext
                        rw [hext]
    · intro st s ms r t h
      simp only [parseMembers] at h ⊢
      rcases hscan : scanStr st s with _ | ⟨k, s1⟩
      · rw [hscan] at h; simp at h
      · rw [hscan] at h; dsimp only at h
        rcases hsw1 : skipWs s1 with _ | ⟨c, s2⟩
        · rw [hsw1] at h; simp at h
        · rw [hsw1] at h; dsimp only at h
          by_cases hc : c = ':'
          · rw [if_pos hc] at h
            rcases hv : scanOnce f st (skipWs s2) with _ | ⟨v, s3⟩
            · rw [hv] at h; simp at h
            · rw [hv] at h; dsimp only at h
              rcases hsw3 : skipWs s3 with _ | ⟨d, s4⟩
              · rw [hsw3] at h; simp at h
              · rw [hsw3] at h; dsimp only at h
                have hne1 : skipWs s1 ≠ [] := by rw [hsw1]; simp
                have hne2 : skipWs s2 ≠ [] := by
                  intro h0; rw [h0, scanOnce_nil] at hv; simp at hv
                have hne3 : skipWs s3 ≠ [] := by rw [hsw3]; simp
                by_cases hd : d = '}'
                · rw [if_pos hd] at h
                  simp only [Option.some.injEq, Prod.mk.injEq] at h
                  obtain ⟨rfl, rfl⟩ := h
                  rw [scanStr_ext t hscan]
                  dsimp only
                  rw [skipWs_app hne1 t, hsw1]
                  simp only [List.cons_append]
                  rw [if_pos hc, skipWs_app hne2 t]
                  rw [ihS t hv (extOk_of_skip hsw3
                    (by subst hd; exact ⟨by decide, by decide, by decide⟩))]
                  dsimp only
                  rw [skipWs_app hne3 t, hsw3]
                  simp only [List.cons_append]
                  rw [if_pos hd]
                · rw [if_neg hd] at h
                  by_cases hcm : d = ','
                  · rw [if_pos hcm] at h
                    rcases hsw4 : skipWs s4 with _ | ⟨e, s5⟩
                    · rw [hsw4] at h; simp at h
                    · rw [hsw4] at h; dsimp only at h
                      by_cases he : e = '"'
                      · rw [if_pos he] at h
                        rcases hpm : parseMembers f st s5 with _ | ⟨ms', s6⟩
                        · rw [hpm] at h; simp at h
                        · rw [hpm] at h; dsimp only at h
                          simp only [Option.some.injEq, Prod.mk.injEq] at h
                          obtain ⟨rfl, rfl⟩ := h
                          have hne4 : skipWs s4 ≠ [] := by rw [hsw4]; simp
                          rw [scanStr_ext t hscan]
                          dsimp only
                          rw [skipWs_app hne1 t, hsw1]
                          simp only [List.cons_append]
                          rw [if_pos hc, skipWs_app hne2 t]
                          rw [ihS t hv (extOk_of_skip hsw3
                            (by subst hcm; exact ⟨by decide, by decide, by decide⟩))]
                          dsimp only
                          rw [skipWs_app hne3 t, hsw3]
                          simp only [List.cons_append]
                          rw [if_neg hd, if_pos hcm, skipWs_app hne4 t, hsw4]
                          simp only [List.cons_append]
                          rw [if_pos he, ihM t hpm]
                      · rw [if_neg he] at h; simp at h
                  · rw [if_neg hcm] at h; simp at h
          · rw [if_neg hc] at h; simp at h
    · intro st s vs r t h
      simp only [parseElems] at h ⊢
      rcases hv : scanOnce f st s with _ | ⟨v, s1⟩
      · rw [hv] at h; simp at h
      · rw [hv] at h; dsimp only at h
        rcases hsw1 : skipWs s1 with _ | ⟨d, s2⟩
        · rw [hsw1] at h; simp at h
        · rw [hsw1] at h; dsimp only at h
          have hne1 : skipWs s1 ≠ [] := by rw [hsw1]; simp
          by_cases hd : d = ']'
          · rw [if_pos hd] at h
            simp only [Option.some.injEq, Prod.mk.injEq] at h
            obtain ⟨rfl, rfl⟩ := h
            rw [ihS t hv (extOk_of_skip hsw1
              (by subst hd; exact ⟨by decide, by decide, by decide⟩))]
            dsimp only
            rw [skipWs_app hne1 t, hsw1]
            simp only [List.cons_append]
            rw [if_pos hd]
          · rw [if_neg hd] at h
            by_cases hcm : d = ','
            · rw [if_pos hcm] at h
              rcases hpe : parseElems f st (skipWs s2) with _ | ⟨vs', s3⟩
              · rw [hpe] at h; simp at h
              · rw [hpe] at h; dsimp only at h
                simp only [Option.some.injEq, Prod.mk.injEq] at h
                obtain ⟨rfl, rfl⟩ := h
                have hne2 : skipWs s2 ≠ [] := by
                  intro h0
                  rw [h0] at hpe
                  have := (scanSufBundle f).2.2 hpe
                  obtain ⟨p, hp, hpeq⟩ := this
                  exact hp (List.append_eq_nil.mp hpeq.symm).1
                rw [ihS t hv (extOk_of_skip hsw1
                  (by subst hcm; exact ⟨by decide, by decide, by decide⟩))]
                dsimp only
                rw [skipWs_app hne1 t, hsw1]
                simp only [List.cons_append]
                rw [if_neg hd, if_pos hcm, skipWs_app hne2 t, ihE t hpe]
            · rw [if_neg hcm] at h; simp at h

theorem scanOnce_ext {f : Nat} {st : Bool} {s : List Char} {v : JsonValue} {r : List Char}
    (t : List Char) (h : scanOnce f st s = some (v, r)) (hok : extOk v r) :
    scanOnce f st (s ++ t) = some (v, r ++ t) := (scanExtBundle f).1 t h hok

theorem rawDecode_nil : rawDecode [] = none := rfl

theorem rawDecode_ext {d t : List Char} {v : JsonValue} {r : List Char}
    (h : rawDecode d = some (v, r)) (hok : extOk v r) :
    rawDecode (d ++ t) = some (v, r ++ t) := by
  unfold rawDecode at h ⊢
  exact scanOnce_ext t (scanOnce_mono (by simp) h) hok

theorem rawDecode_obj_ext {d t : List Char} {m : List (List Nat × JsonValue)}
    (h : rawDecode d = some (.obj m, [])) :
    rawDecode (d ++ t) = some (.obj m, t) := by
  have := rawDecode_ext (t := t) h trivial
  simpa using this

theorem scanOnce_obj_head {f : Nat} {st : Bool} {s : List Char}
    {m : List (List Nat × JsonValue)} {r : List Char}
    (h : scanOnce f st s = some (.obj m, r)) : ∃ x, s = '{' :: x := by
  match f with
  | 0 => simp [scanOnce] at h
  | Nat.succ f =>
    match s with
    | [] => simp [scanOnce] at h
    | c :: s' =>
      refine ⟨s', ?_⟩
      by_cases h2 : c = '{'
      · rw [h2]
      · exfalso
        simp only [scanOnce] at h
        by_cases h1 : c = '"'
        · rw [if_pos h1] at h
          rcases hscan : scanStr st s' with _ | ⟨cs, r2⟩ <;> rw [hscan] at h <;> simp at h
        · rw [if_neg h1, if_neg h2] at h
          by_cases h3 : c = '['
          · rw [if_pos h3] at h
            rcases hsw : skipWs s' with _ | ⟨d, r2⟩
            · rw [hsw] at h; simp at h
            · rw [hsw] at h; dsimp only at h
              by_cases hd : d = ']'
              · rw [if_pos hd] at h; simp at h
              · rw [if_neg hd] at h
                rcases hpe : parseElems f st (d :: r2) with _ | ⟨vs, r3⟩ <;>
                  rw [hpe] at h <;> simp at h
          · rw [if_neg h3] at h
            by_cases h4 : nullLit.isPrefixOf (c :: s')
            · rw [if_pos h4] at h; simp at h
            · rw [if_neg h4] at h
              by_cases h5 : trueLit.isPrefixOf (c :: s')
              · rw [if_pos h5] at h; simp at h
              · rw [if_neg h5] at h
                by_cases h6 : falseLit.isPrefixOf (c :: s')
                · rw [if_pos h6] at h; simp at h
                · rw [if_neg h6] at h
                  rcases hnum : matchNumber (c :: s') with _ | ⟨lex, r2⟩
                  · rw [hnum] at h; dsimp only at h
                    by_cases h7 : nanLit.isPrefixOf (c :: s')
                    · rw [if_pos h7] at h; simp at h
                    · rw [if_neg h7] at h
                      by_cases h8 : infLit.isPrefixOf (c :: s')
                      · rw [if_pos h8] at h; simp at h
                      · rw [if_neg h8] at h
                        by_cases h9 : ninfLit.isPrefixOf (c :: s')
                        · rw [if_pos h9] at h; simp at h
                        · rw [if_neg h9] at h; simp at h
                  · rw [hnum] at h; dsimp only at h; simp at h

theorem rawDecode_obj_head {d : List Char} {m : List (List Nat × JsonValue)} {r : List Char}
    (h : rawDecode d = some (.obj m, r)) : ∃ x, d = '{' :: x := scanOnce_obj_head h

theorem scanOnce_head_obj {f : Nat} {st : Bool} {c : Char} {x : List Char} {v : JsonValue}
    {r : List Char} (hc : c = '{') (h : scanOnce f st (c :: x) = some (v, r)) :
    ∃ mm, v = .obj mm := by
  match f with
  | 0 => simp [scanOnce] at h
  | Nat.succ f =>
    simp only [scanOnce] at h
    rw [if_neg (by rw [hc]; decide), if_pos hc] at h
    rcases hsw : skipWs x with _ | ⟨e, r2⟩
    · rw [hsw] at h; simp at h
    · rw [hsw] at h; dsimp only at h
      by_cases he : e = '}'
      · rw [if_pos he] at h
        simp only [Option.some.injEq, Prod.mk.injEq] at h
        exact ⟨[], h.1.symm⟩
      · rw [if_neg he] at h
        by_cases hq : e = '"'
        · rw [if_pos hq] at h
          rcases hpm : parseMembers f st r2 with _ | ⟨ms, r3⟩
          · rw [hpm] at h; simp at h
          · rw [hpm] at h
            simp only [Option.some.injEq, Prod.mk.injEq] at h
            exact ⟨ms, h.1.symm⟩
        · rw [if_neg hq] at h; simp at h

theorem rawDecode_head_obj {x : List Char} {v : JsonValue} {r : List Char}
    (h : rawDecode ('{' :: x) = some (v, r)) : ∃ mm, v = .obj mm :=
  scanOnce_head_obj rfl h

theorem rawDecode_prefix_none {d : List Char} {m : List (List Nat × JsonValue)}
    (hd : rawDecode d = some (.obj m, [])) {b w : List Char} (hw : w ≠ []) (hb : b ++ w = d) :
    rawDecode b = none := by
  rcases hr : rawDecode b with _ | ⟨v, r⟩
  · rfl
  · exfalso
    match b, hr with
    | [], hr => rw [rawDecode_nil] at hr; simp at hr
    | c :: b', hr =>
      have hc : c = '{' := by
        obtain ⟨x, hx⟩ := rawDecode_obj_head hd
        rw [← hb] at hx
        exact (List.cons.injEq .. ▸ hx).1
      subst hc
      obtain ⟨mm, rfl⟩ := rawDecode_head_obj hr
      have hext := rawDecode_ext (t := w) hr trivial
      rw [hb, hd] at hext
      simp only [Option.some.injEq, Prod.mk.injEq] at hext
      exact hw (List.append_eq_nil.mp hext.2.symm).2

/-! ### The drain loop -/

theorem drainF_congr : ∀ (f g : Nat) (b : List Char), b.length < f → b.length < g →
    drainF f b = drainF g b := by
  intro f
  induction f with
  | zero => intro g b h1 h2; omega
  | succ f ih =>
    intro g b h1 h2
    match g, h2 with
    | Nat.succ g, h2 =>
    simp only [drainF]
    rcases hr : rawDecode b with _ | ⟨v, r⟩
    · rfl
    · dsimp only
      have hlen := rawDecode_length_lt hr
      rw [ih g r (by omega) (by omega)]

theorem drain_none {b : List Char} (h : rawDecode b = none) : drain b = ([], b) := by
  unfold drain
  simp only [drainF]
  rw [h]

theorem drain_step {b : List Char} {v : JsonValue} {r : List Char}
    (h : rawDecode b = some (v, r)) :
    drain b = (v :: (drain r).1, (drain r).2) := by
  unfold drain
  conv_lhs => simp only [drainF]
  rw [h]
  dsimp only
  have hlen := rawDecode_length_lt h
  rw [drainF_congr b.length (r.length + 1) r (by omega) (by omega)]

/-- A valid top-level JSON object document: `raw_decode` consumes it
entirely and yields an object value. -/
def ValidDoc (d : List Char) (v : JsonValue) : Prop :=
  (∃ m, v = .obj m) ∧ rawDecode d = some (v, [])

/-- A trailing fragment on which the decoder can never make progress:
every prefix of it fails to decode, and it is empty or starts at a
plausible object start. -/
def StuckTail (T : List Char) : Prop :=
  (∀ b u, b ++ u = T → rawDecode b = none) ∧ (T = [] ∨ ∃ x, T = '{' :: x)

theorem validDoc_ne_nil {d : List Char} {v : JsonValue} (h : ValidDoc d v) : d ≠ [] := by
  intro h0
  subst h0
  have h2 := h.2
  rw [rawDecode_nil] at h2
  simp at h2

theorem validDoc_head {d : List Char} {v : JsonValue} (h : ValidDoc d v) :
    ∃ x, d = '{' :: x := by
  obtain ⟨⟨m, rfl⟩, h2⟩ := h
  exact rawDecode_obj_head h2

theorem drain_bd : ∀ (ds : List (List Char)) (vs : List JsonValue) (T b : List Char),
    List.Forall₂ ValidDoc ds vs → StuckTail T → (∃ u, b ++ u = ds.flatten ++ T) →
    ∃ ds1 ds2 vs1 vs2 rb, ds = ds1 ++ ds2 ∧ vs = vs1 ++ vs2 ∧
      List.Forall₂ ValidDoc ds2 vs2 ∧ drain b = (vs1, rb) ∧ b = ds1.flatten ++ rb ∧
      ((ds2 = [] ∧ ∃ u, rb ++ u = T) ∨
        (∃ d2 ds2', ds2 = d2 :: ds2' ∧ ∃ u, u ≠ [] ∧ rb ++ u = d2)) := by
  intro ds
  induction ds with
  | nil =>
    intro vs T b hval hstuck hpre
    obtain rfl := List.forall₂_nil_left_iff.mp hval
    obtain ⟨u, hu⟩ := hpre
    simp only [List.flatten, List.nil_append] at hu
    have hdec : rawDecode b = none := hstuck.1 b u hu
    exact ⟨[], [], [], [], b, rfl, rfl, List.Forall₂.nil, drain_none hdec, by simp,
      Or.inl ⟨rfl, u, hu⟩⟩
  | cons d ds' ih =>
    intro vs T b hval hstuck hpre
    rcases hval with _ | ⟨hvd, hval'⟩
    rename_i v vs'
    obtain ⟨u, hu⟩ := hpre
    rw [List.flatten_cons, List.append_assoc] at hu
    rcases List.append_eq_append_iff.mp hu.symm with ⟨a', ha1, ha2⟩ | ⟨c', hc1, hc2⟩
    · -- b = d ++ a' : the first document is entirely in the buffer
      have hdec : rawDecode b = some (v, a') := by
        rw [ha1]
        obtain ⟨⟨m, rfl⟩, hvd2⟩ := hvd
        exact rawDecode_obj_ext hvd2
      obtain ⟨ds1, ds2, vs1, vs2, rb, he1, he2, hf2, hdr, hbeq, hlast⟩ :=
        ih vs' T a' hval' hstuck ⟨u, ha2.symm⟩
      refine ⟨d :: ds1, ds2, v :: vs1, vs2, rb, by simp [he1], by simp [he2], hf2, ?_, ?_, hlast⟩
      · rw [drain_step hdec, hdr]
      · rw [ha1, hbeq, List.flatten_cons, List.append_assoc]
    · -- b is a proper prefix of d (or equals d with c' = [])
      match c', hc2 with
      | [], hc2 =>
        -- b = d exactly
        have hb : b = d := by simpa using hc1.symm
        subst hb
        have hdec : rawDecode b = some (v, []) := hvd.2
        obtain ⟨ds1, ds2, vs1, vs2, rb, he1, he2, hf2, hdr, hbeq, hlast⟩ :=
          ih vs' T [] hval' hstuck ⟨ds'.flatten ++ T, by simp⟩
        refine ⟨b :: ds1, ds2, v :: vs1, vs2, rb, by simp [he1], by simp [he2], hf2, ?_, ?_, hlast⟩
        · rw [drain_step hdec, hdr]
        · rw [List.flatten_cons, List.append_assoc, ← hbeq, List.append_nil]
      | e :: c'', hc2 =>
        have hdec : rawDecode b = none := by
          obtain ⟨⟨m, rfl⟩, hvd2⟩ := hvd
          exact rawDecode_prefix_none hvd2 (by simp) hc1.symm
        exact ⟨[], d :: ds', [], v :: vs', b, rfl, rfl, List.Forall₂.cons hvd hval',
          drain_none hdec, by simp, Or.inr ⟨d, ds', rfl, e :: c'', by simp, hc1.symm⟩⟩

/-! ### The trim step and the chunk loop -/

theorem isPyWs_ne_lbrace {c : Char} (h : isPyWs c) : c ≠ '{' := by
  have hc : ((c = ' ' ∨ c = '\t') ∨ c = '\n') ∨ c = '\r' := by simpa [isPyWs] using h
  rcases hc with ((rfl | rfl) | rfl) | rfl <;> decide

theorem pyTrim_nil : pyTrim [] = [] := rfl

theorem pyTrim_lbrace (x : List Char) : pyTrim ('{' :: x) = '{' :: x := by
  unfold pyTrim
  rw [List.findIdx?_cons]
  simp

theorem pyTrim_id {b : List Char} (h : b = [] ∨ ∃ x, b = '{' :: x) : pyTrim b = b := by
  rcases h with rfl | ⟨x, rfl⟩
  · exact pyTrim_nil
  · exact pyTrim_lbrace x

theorem findIdx_ws {w : List Char} (hw : ∀ c ∈ w, isPyWs c) (x : List Char) :
    (w ++ '{' :: x).findIdx? (fun c => c = '{') = some w.length := by
  induction w with
  | nil => rw [List.nil_append, List.findIdx?_cons]; simp
  | cons a w' ih =>
    rw [List.cons_append, List.findIdx?_cons]
    have ha : ¬(a = '{') := isPyWs_ne_lbrace (hw a (by simp))
    rw [if_neg (by simpa using ha), List.findIdx?_succ, ih (fun c hc => hw c (by simp [hc]))]
    simp

theorem pyTrim_ws {w : List Char} (hw : ∀ c ∈ w, isPyWs c) (x : List Char) :
    pyTrim (w ++ '{' :: x) = '{' :: x := by
  unfold pyTrim
  rw [findIdx_ws hw x]
  exact List.drop_left w ('{' :: x)

theorem pre_head {b u : List Char} {c0 : Char} {y' : List Char}
    (h : b ++ u = c0 :: y') (hb : b ≠ []) : ∃ x, b = c0 :: x := by
  match b with
  | [] => exact absurd rfl hb
  | e :: b' =>
    rw [List.cons_append] at h
    obtain ⟨he, -⟩ := List.cons.injEq .. ▸ h
    exact ⟨b', by rw [he]⟩

theorem runChar_bd : ∀ (cs ds : List (List Char)) (vs : List JsonValue) (T buffer : List Char),
    List.Forall₂ ValidDoc ds vs → StuckTail T →
    ((ds = [] ∧ ∃ u, buffer ++ u = T) ∨
      (∃ d ds', ds = d :: ds' ∧ ∃ u, u ≠ [] ∧ buffer ++ u = d)) →
    buffer ++ cs.flatten = ds.flatten ++ T →
    runChar buffer cs = vs := by
  intro cs
  induction cs with
  | nil =>
    intro ds vs T buffer hval hstuck halign hjoin
    simp only [List.flatten_nil, List.append_nil] at hjoin
    rcases halign with ⟨rfl, u, hu⟩ | ⟨d, ds', rfl, u, hune, hu⟩
    · obtain rfl := List.forall₂_nil_left_iff.mp hval
      rfl
    · exfalso
      rw [List.flatten_cons, List.append_assoc] at hjoin
      have h1 := congrArg List.length hjoin
      have h2 := congrArg List.length hu
      simp only [List.length_append] at h1 h2
      have : u.length ≠ 0 := fun h0 => hune (List.length_eq_zero.mp h0)
      omega
  | cons c cs' ih =>
    intro ds vs T buffer hval hstuck halign hjoin
    rw [List.flatten_cons, ← List.append_assoc] at hjoin
    have htrim : pyTrim (buffer ++ c) = buffer ++ c := by
      apply pyTrim_id
      rcases hbc : buffer ++ c with _ | ⟨e, bc'⟩
      · exact Or.inl rfl
      · refine Or.inr ?_
        rw [← hbc]
        rcases hval with _ | ⟨hvd, hval'⟩
        · rcases hstuck.2 with rfl | ⟨x, hT⟩
          · rw [List.flatten_nil, List.nil_append] at hjoin
            rw [hbc] at hjoin
            simp at hjoin
          · rw [List.flatten_nil, List.nil_append, hT] at hjoin
            exact pre_head hjoin (by rw [hbc]; simp)
        · obtain ⟨x, hd⟩ := validDoc_head hvd
          rw [List.flatten_cons, hd, List.cons_append] at hjoin
          exact pre_head hjoin (by rw [hbc]; simp)
    simp only [runChar]
    rw [htrim]
    obtain ⟨ds1, ds2, vs1, vs2, rb, he1, he2, hf2, hdr, hbeq, hlast⟩ :=
      drain_bd ds vs T (buffer ++ c) hval hstuck ⟨cs'.flatten, hjoin⟩
    rw [hdr]
    dsimp only
    have hjoin2 : rb ++ cs'.flatten = ds2.flatten ++ T := by
      have : (buffer ++ c) ++ cs'.flatten = ds.flatten ++ T := hjoin
      rw [hbeq, he1, List.flatten_append, List.append_assoc, List.append_assoc] at this
      exact List.append_cancel_left this
    rw [he2]
    have halign2 : (ds2 = [] ∧ ∃ u, rb ++ u = T) ∨
        (∃ d ds', ds2 = d :: ds' ∧ ∃ u, u ≠ [] ∧ rb ++ u = d) := hlast
    rw [ih ds2 vs2 T rb hf2 hstuck halign2 hjoin2]

theorem runBytes_of_decode : ∀ (chunks : List (List Nat)) (dchunks : List (List Char))
    (buffer : List Char),
    List.Forall₂ (fun bs cs => utf8Decode bs = some cs) chunks dchunks →
    runBytes buffer chunks = (runChar buffer dchunks, false) := by
  intro chunks
  induction chunks with
  | nil =>
    intro dchunks buffer h
    obtain rfl := List.forall₂_nil_left_iff.mp h
    rfl
  | cons ch chunks' ih =>
    intro dchunks buffer h
    rcases h with _ | ⟨hdec, h'⟩
    rename_i cs dchunks'
    simp only [runBytes, runChar]
    rw [hdec]
    dsimp only
    rw [ih dchunks' _ h']

theorem utf8F_nil (f : Nat) : utf8DecodeF f [] = some [] := by
  cases f <;> rfl

theorem utf8F_congr : ∀ (f g : Nat) (l : List Nat), l.length ≤ f → l.length ≤ g →
    utf8DecodeF f l = utf8DecodeF g l := by
  intro f
  induction f with
  | zero =>
    intro g l h1 h2
    match l, h1 with
    | [], _ => rw [utf8F_nil, utf8F_nil]
  | succ f ih =>
    intro g l h1 h2
    match l with
    | [] => rw [utf8F_nil, utf8F_nil]
    | b :: r =>
      match g, h2 with
      | Nat.succ g, h2 =>
      simp only [utf8DecodeF]
      simp only [List.length_cons] at h1 h2
      by_cases hc1 : b < 0x80
      · simp only [if_pos hc1]
        rw [ih g r (by omega) (by omega)]
      · simp only [if_neg hc1]
        by_cases hc2 : b < 0xC2
        · simp only [if_pos hc2]
        · simp only [if_neg hc2]
          by_cases hc3 : b < 0xE0
          · simp only [if_pos hc3]
            match r with
            | [] => rfl
            | b1 :: r1 =>
              dsimp only
              simp only [List.length_cons] at h1 h2
              rw [ih g r1 (by omega) (by omega)]
          · simp only [if_neg hc3]
            by_cases hc4 : b < 0xF0
            · simp only [if_pos hc4]
              match r with
              | [] => rfl
              | [b1] => rfl
              | b1 :: b2 :: r2 =>
                dsimp only
                simp only [List.length_cons] at h1 h2
                rw [ih g r2 (by omega) (by omega)]
            · simp only [if_neg hc4]
              by_cases hc5 : b < 0xF5
              · simp only [if_pos hc5]
                match r with
                | [] => rfl
                | [b1] => rfl
                | [b1, b2] => rfl
                | b1 :: b2 :: b3 :: r3 =>
                  dsimp only
                  simp only [List.length_cons] at h1 h2
                  rw [ih g r3 (by omega) (by omega)]
              · simp only [if_neg hc5]

theorem utf8F_append : ∀ (f : Nat) (a : List Nat) {b : List Nat} {x y : List Char},
    utf8DecodeF f a = some x → utf8Decode b = some y →
    utf8DecodeF (f + b.length) (a ++ b) = some (x ++ y) := by
  intro f
  induction f with
  | zero =>
    intro a b x y h1 h2
    match a with
    | [] =>
      rw [utf8F_nil] at h1
      simp only [Option.some.injEq] at h1
      subst h1
      rw [List.nil_append, List.nil_append, Nat.zero_add]
      exact h2
    | b0 :: r => simp [utf8DecodeF] at h1
  | succ f ih =>
    intro a b x y h1 h2
    match a with
    | [] =>
      rw [utf8F_nil] at h1
      simp only [Option.some.injEq] at h1
      subst h1
      rw [List.nil_append, List.nil_append]
      rw [utf8F_congr (f + 1 + b.length) b.length b (by omega) (le_refl _)]
      exact h2
    | b0 :: r =>
      simp only [List.cons_append]
      have hfe : f + 1 + b.length = (f + b.length) + 1 := by omega
      rw [hfe]
      simp only [utf8DecodeF] at h1 ⊢
      by_cases hc1 : b0 < 0x80
      · rw [if_pos hc1] at h1 ⊢
        simp only [Option.map_eq_some'] at h1
        obtain ⟨cs, hrec, rfl⟩ := h1
        rw [ih r hrec h2]
        rfl
      · rw [if_neg hc1] at h1 ⊢
        by_cases hc2 : b0 < 0xC2
        · rw [if_pos hc2] at h1; simp at h1
        · rw [if_neg hc2] at h1 ⊢
          by_cases hc3 : b0 < 0xE0
          · rw [if_pos hc3] at h1 ⊢
            match r with
            | [] => simp at h1
            | b1 :: r1 =>
              simp only [List.cons_append]
              dsimp only at h1 ⊢
              by_cases hb1 : 0x80 ≤ b1 ∧ b1 < 0xC0
              · rw [if_pos hb1] at h1 ⊢
                simp only [Option.map_eq_some'] at h1
                obtain ⟨cs, hrec, rfl⟩ := h1
                rw [ih r1 hrec h2]
                rfl
              · rw [if_neg hb1] at h1; simp at h1
          · rw [if_neg hc3] at h1 ⊢
            by_cases hc4 : b0 < 0xF0
            · rw [if_pos hc4] at h1 ⊢
              match r with
              | [] => simp at h1
              | [b1] => simp at h1
              | b1 :: b2 :: r2 =>
                simp only [List.cons_append]
                dsimp only at h1 ⊢
                by_cases hb1 : (0x80 ≤ b1 ∧ b1 < 0xC0) ∧ (0x80 ≤ b2 ∧ b2 < 0xC0) ∧
                    (b0 = 0xE0 → 0xA0 ≤ b1) ∧ (b0 = 0xED → b1 < 0xA0)
                · rw [if_pos hb1] at h1 ⊢
                  simp only [Option.map_eq_some'] at h1
                  obtain ⟨cs, hrec, rfl⟩ := h1
                  rw [ih r2 hrec h2]
                  rfl
                · rw [if_neg hb1] at h1; simp at h1
            · rw [if_neg hc4] at h1 ⊢
              by_cases hc5 : b0 < 0xF5
              · rw [if_pos hc5] at h1 ⊢
                match r with
                | [] => simp at h1
                | [b1] => simp at h1
                | [b1, b2] => simp at h1
                | b1 :: b2 :: b3 :: r3 =>
                  simp only [List.cons_append]
                  dsimp only at h1 ⊢
                  by_cases hb1 : (0x80 ≤ b1 ∧ b1 < 0xC0) ∧ (0x80 ≤ b2 ∧ b2 < 0xC0) ∧
                      (0x80 ≤ b3 ∧ b3 < 0xC0) ∧ (b0 = 0xF0 → 0x90 ≤ b1) ∧
                      (b0 = 0xF4 → b1 < 0x90)
                  · rw [if_pos hb1] at h1 ⊢
                    simp only [Option.map_eq_some'] at h1
                    obtain ⟨cs, hrec, rfl⟩ := h1
                    rw [ih r3 hrec h2]
                    rfl
                  · rw [if_neg hb1] at h1; simp at h1
              · rw [if_neg hc5] at h1; simp at h1

theorem utf8Decode_append {a b : List Nat} {x y : List Char}
    (h1 : utf8Decode a = some x) (h2 : utf8Decode b = some y) :
    utf8Decode (a ++ b) = some (x ++ y) := by
  unfold utf8Decode at h1 ⊢
  rw [List.length_append]
  exact utf8F_append a.length a h1 h2

/-! ### The instrumented runner: closing positions are strictly increasing -/

theorem drainP_proj : ∀ (f : Nat) (pos : Nat) (b : List Char),
    (drainP f pos b).1.map Prod.fst = (drainF f b).1 ∧
    (drainP f pos b).2.2 = (drainF f b).2 := by
  intro f
  induction f with
  | zero => intro pos b; exact ⟨rfl, rfl⟩
  | succ f ih =>
    intro pos b
    simp only [drainP, drainF]
    rcases hr : rawDecode b with _ | ⟨v, r⟩
    · exact ⟨rfl, rfl⟩
    · dsimp only
      obtain ⟨ih1, ih2⟩ := ih (pos + (b.length - r.length)) r
      constructor
      · simp only [List.map_cons, ih1]
      · exact ih2

theorem runBytesP_proj : ∀ (chunks : List (List Nat)) (pos : Nat) (buffer : List Char),
    (runBytesP pos buffer chunks).1.map Prod.fst = (runBytes buffer chunks).1 ∧
    (runBytesP pos buffer chunks).2 = (runBytes buffer chunks).2 := by
  intro chunks
  induction chunks with
  | nil => intro pos buffer; exact ⟨rfl, rfl⟩
  | cons ch rest ih =>
    intro pos buffer
    simp only [runBytesP, runBytes]
    rcases hd : utf8Decode ch with _ | ⟨ds⟩
    · exact ⟨rfl, rfl⟩
    · dsimp only
      obtain ⟨ihp1, ihp2⟩ := drainP_proj ((pyTrim (buffer ++ ds)).length + 1)
        (pos + ((buffer ++ ds).length - (pyTrim (buffer ++ ds)).length)) (pyTrim (buffer ++ ds))
      obtain ⟨ih1, ih2⟩ := ih (drainP ((pyTrim (buffer ++ ds)).length + 1)
        (pos + ((buffer ++ ds).length - (pyTrim (buffer ++ ds)).length))
        (pyTrim (buffer ++ ds))).2.1
        (drainP ((pyTrim (buffer ++ ds)).length + 1)
          (pos + ((buffer ++ ds).length - (pyTrim (buffer ++ ds)).length))
          (pyTrim (buffer ++ ds))).2.2
      constructor
      · simp only [List.map_append]
        rw [ihp1, ihp2]
        rw [ihp2] at ih1
        rw [ih1]
        simp only [drain]
      · rw [ihp2] at ih2
        rw [ihp2, ih2]
        simp only [drain]

theorem drainP_chain : ∀ (f : Nat) (pos : Nat) (b : List Char),
    List.Chain (· < ·) pos ((drainP f pos b).1.map Prod.snd) ∧
    pos ≤ (drainP f pos b).2.1 ∧
    ∀ o ∈ (drainP f pos b).1.map Prod.snd, o ≤ (drainP f pos b).2.1 := by
  intro f
  induction f with
  | zero =>
    intro pos b
    exact ⟨List.Chain.nil, le_refl _, by simp [drainP]⟩
  | succ f ih =>
    intro pos b
    simp only [drainP]
    rcases hr : rawDecode b with _ | ⟨v, r⟩
    · exact ⟨List.Chain.nil, le_refl _, by simp⟩
    · dsimp only
      have hidx : 1 ≤ b.length - r.length := by
        have := rawDecode_length_lt hr
        omega
      obtain ⟨ih1, ih2, ih3⟩ := ih (pos + (b.length - r.length)) r
      refine ⟨List.Chain.cons (by omega) ih1, by omega, ?_⟩
      intro o ho
      simp only [List.map_cons, List.mem_cons] at ho
      rcases ho with rfl | ho
      · omega
      · exact ih3 o ho

theorem chain_lt_weaken {a b : Nat} {l : List Nat} (hab : a ≤ b)
    (h : List.Chain (· < ·) b l) : List.Chain (· < ·) a l := by
  rcases h with _ | ⟨hx, htail⟩
  · exact List.Chain.nil
  · exact List.Chain.cons (lt_of_le_of_lt hab hx) htail

theorem chain_lt_append {a b : Nat} {l1 l2 : List Nat} (h1 : List.Chain (· < ·) a l1)
    (h2 : List.Chain (· < ·) b l2) (hb : ∀ x ∈ l1, x ≤ b) (hab : a ≤ b) :
    List.Chain (· < ·) a (l1 ++ l2) := by
  induction l1 generalizing a with
  | nil =>
    rw [List.nil_append]
    rcases h2 with _ | ⟨hx, htail⟩
    · exact List.Chain.nil
    · exact List.Chain.cons (lt_of_le_of_lt hab hx) htail
  | cons x l1' ih =>
    rcases h1 with _ | ⟨hax, h1'⟩
    rw [List.cons_append]
    exact List.Chain.cons hax
      (ih h1' (fun y hy => hb y (List.mem_cons_of_mem x hy)) (hb x (List.mem_cons_self x l1')))

theorem runBytesP_chain : ∀ (chunks : List (List Nat)) (pos : Nat) (buffer : List Char),
    List.Chain (· < ·) pos ((runBytesP pos buffer chunks).1.map Prod.snd) := by
  intro chunks
  induction chunks with
  | nil => intro pos buffer; exact List.Chain.nil
  | cons ch rest ih =>
    intro pos buffer
    simp only [runBytesP]
    rcases hd : utf8Decode ch with _ | ⟨ds⟩
    · exact List.Chain.nil
    · dsimp only
      have hpos1 : pos ≤ pos + ((buffer ++ ds).length - (pyTrim (buffer ++ ds)).length) :=
        Nat.le_add_right _ _
      obtain ⟨hc1, hc2, hc3⟩ := drainP_chain ((pyTrim (buffer ++ ds)).length + 1)
        (pos + ((buffer ++ ds).length - (pyTrim (buffer ++ ds)).length)) (pyTrim (buffer ++ ds))
      have hrest := ih (drainP ((pyTrim (buffer ++ ds)).length + 1)
        (pos + ((buffer ++ ds).length - (pyTrim (buffer ++ ds)).length))
        (pyTrim (buffer ++ ds))).2.1
        (drainP ((pyTrim (buffer ++ ds)).length + 1)
          (pos + ((buffer ++ ds).length - (pyTrim (buffer ++ ds)).length))
          (pyTrim (buffer ++ ds))).2.2
      rw [List.map_append]
      exact chain_lt_append (chain_lt_weaken hpos1 hc1) hrest hc3 (le_trans hpos1 hc2)

/-! ### Helpers for the claim theorems -/

/-- The empty tail is stuck: nothing ever decodes from an empty leftover. -/
theorem stuck_nil : StuckTail [] := by
  constructor
  · intro b u h
    obtain ⟨hb, -⟩ := List.append_eq_nil.mp h
    rw [hb, rawDecode_nil]
  · exact Or.inl rfl

/-- A nonempty proper prefix of a valid object document is stuck: no prefix
of it decodes, and it starts with the opening brace. -/
theorem stuck_of_proper {T w d' : List Char} {v' : JsonValue} (hvd' : ValidDoc d' v')
    (hw : w ≠ []) (hTw : T ++ w = d') (hT : T ≠ []) : StuckTail T := by
  obtain ⟨⟨m, rfl⟩, hdec⟩ := hvd'
  constructor
  · intro b u hbu
    have hb : b ++ (u ++ w) = d' := by rw [← List.append_assoc, hbu, hTw]
    exact rawDecode_prefix_none hdec (fun h0 => hw (List.append_eq_nil.mp h0).2) hb
  · obtain ⟨x, hx⟩ := rawDecode_obj_head hdec
    rw [hx] at hTw
    exact Or.inr (pre_head hTw hT)

/-- Main driver: a chunking of `documents ++ stuck tail` into UTF-8-decodable
byte chunks makes `parse_json_stream` emit exactly the documents' values,
with no error. -/
theorem runFull (ds : List (List Char)) (vs : List JsonValue) (T : List Char)
    (hval : List.Forall₂ ValidDoc ds vs) (hstuck : StuckTail T)
    (cs : List (List Char)) (hcs : cs.flatten = ds.flatten ++ T)
    (bss : List (List Nat))
    (hbss : List.Forall₂ (fun bs c => utf8Decode bs = some c) bss cs) :
    parse_json_stream bss = (vs, false) := by
  unfold parse_json_stream
  rw [runBytes_of_decode bss cs [] hbss]
  have halign : (ds = [] ∧ ∃ u, ([] : List Char) ++ u = T) ∨
      (∃ d ds', ds = d :: ds' ∧ ∃ u, u ≠ [] ∧ ([] : List Char) ++ u = d) := by
    rcases hds : ds with _ | ⟨d, ds'⟩
    · exact Or.inl ⟨rfl, T, by simp⟩
    · have hv2 := hval
      rw [hds] at hv2
      rcases hv2 with _ | ⟨hvd, -⟩
      exact Or.inr ⟨d, ds', rfl, d, validDoc_ne_nil hvd, by simp⟩
  rw [runChar_bd cs ds vs T [] hval hstuck halign (by simpa using hcs)]

/-- When every chunk is UTF-8-decodable the generator never ends in an
uncaught exception: a failed `raw_decode` only breaks the inner loop. -/
theorem runBytes_noerr : ∀ (chunks : List (List Nat)) (buffer : List Char),
    (∀ ch ∈ chunks, utf8Decode ch ≠ none) → (runBytes buffer chunks).2 = false := by
  intro chunks
  induction chunks with
  | nil => intro buffer _; rfl
  | cons ch rest ih =>
    intro buffer h
    simp only [runBytes]
    rcases hd : utf8Decode ch with _ | ⟨ds⟩
    · exact absurd hd (h ch (List.mem_cons_self ch rest))
    · dsimp only
      exact ih _ (fun c hc => h c (List.mem_cons_of_mem ch hc))

/-- If some chunk fails to decode as UTF-8, the run ends with the error flag. -/
theorem runBytes_err : ∀ (chunks : List (List Nat)) (buffer : List Char),
    (∃ ch ∈ chunks, utf8Decode ch = none) → (runBytes buffer chunks).2 = true := by
  intro chunks
  induction chunks with
  | nil =>
    intro buffer h
    obtain ⟨ch, hm, -⟩ := h
    exact absurd hm (List.not_mem_nil ch)
  | cons ch rest ih =>
    intro buffer h
    simp only [runBytes]
    rcases hd : utf8Decode ch with _ | ⟨ds⟩
    · rfl
    · dsimp only
      obtain ⟨c0, hm, hc0⟩ := h
      rcases List.mem_cons.mp hm with rfl | hm'
      · rw [hd] at hc0
        exact absurd hc0 (by simp)
      · exact ih _ ⟨c0, hm', hc0⟩

/-- Processing stops at the first undecodable chunk: chunks after it are
never read (the generator has already terminated with the exception). -/
theorem runBytes_stop : ∀ (pre : List (List Nat)) (buffer : List Char) (ch : List Nat)
    (post : List (List Nat)), utf8Decode ch = none →
    runBytes buffer (pre ++ ch :: post) = runBytes buffer (pre ++ [ch]) := by
  intro pre
  induction pre with
  | nil =>
    intro buffer ch post h
    simp only [List.nil_append, runBytes]
    rw [h]
  | cons p pre' ih =>
    intro buffer ch post h
    simp only [List.cons_append, runBytes]
    rcases hd : utf8Decode p with _ | ⟨ds⟩
    · rfl
    · dsimp only
      simp only [List.append_eq]
      rw [ih _ ch post h]

/-- In the trim, `find` locates the first `'\x7b'` even past arbitrary
other characters, not only past whitespace. -/
theorem findIdx_no_lbrace {p : List Char} (hp : '{' ∉ p) (x : List Char) :
    (p ++ '{' :: x).findIdx? (fun c => c = '{') = some p.length := by
  induction p with
  | nil =>
    rw [List.nil_append, List.findIdx?_cons]
    simp
  | cons a p' ih =>
    rw [List.cons_append, List.findIdx?_cons]
    have ha : ¬(a = '{') := fun h => hp (by rw [← h]; exact List.mem_cons_self a p')
    rw [if_neg (by simpa using ha), List.findIdx?_succ,
      ih (fun hm => hp (List.mem_cons_of_mem a hm))]
    simp

/-- When the buffer contains an opening brace, the trim drops exactly the
bytes before its first occurrence. -/
theorem pyTrim_first {p q : List Char} (hp : '{' ∉ p) : pyTrim (p ++ '{' :: q) = '{' :: q := by
  unfold pyTrim
  rw [findIdx_no_lbrace hp q]
  exact List.drop_left p ('{' :: q)

/-- When the buffer contains no opening brace, `find` returns `-1` and the
slice `buffer[-1:]` keeps exactly the final character. -/
theorem pyTrim_no_lbrace {b : List Char} (h : '{' ∉ b) : pyTrim b = b.drop (b.length - 1) := by
  unfold pyTrim
  have hn : b.findIdx? (fun c => c = '{') = none := by
    rw [List.findIdx?_eq_none_iff]
    intro c hc
    simp only [decide_eq_false_iff_not]
    exact fun he => h (he ▸ hc)
  rw [hn]

/-- No top-level value starts at a whitespace character: `raw_decode` does
not skip leading whitespace. -/
theorem rawDecode_ws_none {c : Char} (hc : isPyWs c) (r : List Char) :
    rawDecode (c :: r) = none := by
  have key : ∀ c0 : Char, c0 ≠ '"' → c0 ≠ '{' → c0 ≠ '[' → c0 ≠ 'n' → c0 ≠ 't' → c0 ≠ 'f' →
      c0 ≠ '-' → ¬(c0 = '0' ∨ ('1' ≤ c0 ∧ c0 ≤ '9')) → c0 ≠ 'N' → c0 ≠ 'I' →
      rawDecode (c0 :: r) = none := by
    intro c0 h1 h2 h3 h4 h5 h6 h7 h8 h9 h10
    show scanOnce (Nat.succ ((c0 :: r).length)) false (c0 :: r) = none
    simp only [scanOnce]
    rw [if_neg h1, if_neg h2, if_neg h3, if_neg (nullPre_false h4 r),
      if_neg (truePre_false h5 r), if_neg (falsePre_false h6 r),
      matchNumber_head_none h7 h8 r]
    dsimp only
    rw [if_neg (nanPre_false h9 r), if_neg (infPre_false h10 r),
      if_neg (ninfPre_false h7 r)]
  have hd : ((c = ' ' ∨ c = '\t') ∨ c = '\n') ∨ c = '\r' := by
    unfold isPyWs at hc
    simp only [Bool.or_eq_true, decide_eq_true_eq] at hc
    exact hc
  rcases hd with ((rfl | rfl) | rfl) | rfl <;>
    exact key _ (by decide) (by decide) (by decide) (by decide) (by decide) (by decide)
      (by decide) (by decide) (by decide) (by decide)

/-- Appending an undecodable byte tail to a decodable prefix makes the
whole chunk undecodable: decoding is sequential and must reach the tail. -/
theorem utf8F_append_none : ∀ (f : Nat) (a : List Nat) {b : List Nat} {x : List Char},
    utf8DecodeF f a = some x → utf8Decode b = none →
    utf8DecodeF (f + b.length) (a ++ b) = none := by
  intro f
  induction f with
  | zero =>
    intro a b x h1 h2
    match a with
    | [] =>
      rw [List.nil_append, Nat.zero_add]
      exact h2
    | b0 :: r => simp [utf8DecodeF] at h1
  | succ f ih =>
    intro a b x h1 h2
    match a with
    | [] =>
      rw [List.nil_append]
      rw [utf8F_congr (f + 1 + b.length) b.length b (by omega) (le_refl _)]
      exact h2
    | b0 :: r =>
      simp only [List.cons_append]
      have hfe : f + 1 + b.length = (f + b.length) + 1 := by omega
      rw [hfe]
      simp only [utf8DecodeF] at h1 ⊢
      by_cases hc1 : b0 < 0x80
      · rw [if_pos hc1] at h1 ⊢
        simp only [Option.map_eq_some'] at h1
        obtain ⟨cs, hrec, rfl⟩ := h1
        rw [ih r hrec h2]
        rfl
      · rw [if_neg hc1] at h1 ⊢
        by_cases hc2 : b0 < 0xC2
        · rw [if_pos hc2] at h1; simp at h1
        · rw [if_neg hc2] at h1 ⊢
          by_cases hc3 : b0 < 0xE0
          · rw [if_pos hc3] at h1 ⊢
            match r with
            | [] => simp at h1
            | b1 :: r1 =>
              simp only [List.cons_append]
              dsimp only at h1 ⊢
              by_cases hb1 : 0x80 ≤ b1 ∧ b1 < 0xC0
              · rw [if_pos hb1] at h1 ⊢
                simp only [Option.map_eq_some'] at h1
                obtain ⟨cs, hrec, rfl⟩ := h1
                rw [ih r1 hrec h2]
                rfl
              · rw [if_neg hb1] at h1; simp at h1
          · rw [if_neg hc3] at h1 ⊢
            by_cases hc4 : b0 < 0xF0
            · rw [if_pos hc4] at h1 ⊢
              match r with
              | [] => simp at h1
              | [b1] => simp at h1
              | b1 :: b2 :: r2 =>
                simp only [List.cons_append]
                dsimp only at h1 ⊢
                by_cases hb1 : (0x80 ≤ b1 ∧ b1 < 0xC0) ∧ (0x80 ≤ b2 ∧ b2 < 0xC0) ∧
                    (b0 = 0xE0 → 0xA0 ≤ b1) ∧ (b0 = 0xED → b1 < 0xA0)
                · rw [if_pos hb1] at h1 ⊢
                  simp only [Option.map_eq_some'] at h1
                  obtain ⟨cs, hrec, rfl⟩ := h1
                  rw [ih r2 hrec h2]
                  rfl
                · rw [if_neg hb1] at h1; simp at h1
            · rw [if_neg hc4] at h1 ⊢
              by_cases hc5 : b0 < 0xF5
              · rw [if_pos hc5] at h1 ⊢
                match r with
                | [] => simp at h1
                | [b1] => simp at h1
                | [b1, b2] => simp at h1
                | b1 :: b2 :: b3 :: r3 =>
                  simp only [List.cons_append]
                  dsimp only at h1 ⊢
                  by_cases hb1 : (0x80 ≤ b1 ∧ b1 < 0xC0) ∧ (0x80 ≤ b2 ∧ b2 < 0xC0) ∧
                      (0x80 ≤ b3 ∧ b3 < 0xC0) ∧ (b0 = 0xF0 → 0x90 ≤ b1) ∧
                      (b0 = 0xF4 → b1 < 0x90)
                  · rw [if_pos hb1] at h1 ⊢
                    simp only [Option.map_eq_some'] at h1
                    obtain ⟨cs, hrec, rfl⟩ := h1
                    rw [ih r3 hrec h2]
                    rfl
                  · rw [if_neg hb1] at h1; simp at h1
              · rw [if_neg hc5] at h1; simp at h1

theorem utf8Decode_append_none {a b : List Nat} {x : List Char}
    (h1 : utf8Decode a = some x) (h2 : utf8Decode b = none) :
    utf8Decode (a ++ b) = none := by
  unfold utf8Decode at h1 ⊢
  rw [List.length_append]
  exact utf8F_append_none a.length a h1 h2

/-- A lone leading byte of a multi-byte UTF-8 sequence does not decode:
the continuation bytes are missing. -/
theorem utf8_lead_single {b : Nat} (h1 : 0xC2 ≤ b) (h2 : b < 0xF5) :
    utf8Decode [b] = none := by
  show utf8DecodeF (Nat.succ 0) [b] = none
  simp only [utf8DecodeF]
  rw [if_neg (by omega), if_neg (by omega)]
  by_cases h3 : b < 0xE0
  · rw [if_pos h3]
  · rw [if_neg h3]
    by_cases h4 : b < 0xF0
    · rw [if_pos h4]
    · rw [if_neg h4, if_pos h2]

/-! ### The claims -/

/-- C2: Order preservation and at-most-once emission. The instrumented run
tags every yielded value with the logical-stream position just past its
closing character; the tagged run projects to `parse_json_stream`, and the
tag sequence is strictly increasing, so for every chunk sequence the values
are yielded in the order of their closing bytes in the logical stream and
no closing position is yielded twice. -/
theorem c2_order_preservation (chunks : List (List Nat)) :
    (runBytesP 0 [] chunks).1.map Prod.fst = (parse_json_stream chunks).1 ∧
    (runBytesP 0 [] chunks).2 = (parse_json_stream chunks).2 ∧
    List.Chain (· < ·) 0 ((runBytesP 0 [] chunks).1.map Prod.snd) :=
  ⟨(runBytesP_proj chunks 0 []).1, (runBytesP_proj chunks 0 []).2, runBytesP_chain chunks 0 []⟩

/-- C4: Failed parse is non-destructive and never a hard error. When
`raw_decode` fails at the front of the buffer the inner loop yields
nothing and leaves the buffer exactly as it was; and as long as every
chunk is UTF-8-decodable, no run ends in an uncaught exception — a
`JSONDecodeError` only breaks the inner loop. -/
theorem c4_failed_parse_nondestructive :
    (∀ b : List Char, rawDecode b = none → drain b = ([], b)) ∧
    (∀ chunks : List (List Nat), (∀ ch ∈ chunks, utf8Decode ch ≠ none) →
      (parse_json_stream chunks).2 = false) :=
  ⟨fun _ h => drain_none h, fun chunks h => runBytes_noerr chunks [] h⟩

theorem c4_witness :
    drain (strChars "\x7b\"a\":") = ([], strChars "\x7b\"a\":") ∧
    (parse_json_stream [asciiBytes "\x7b\"a\":"]).2 = false :=
  ⟨c4_failed_parse_nondestructive.1 (strChars "\x7b\"a\":") rfl,
   c4_failed_parse_nondestructive.2 [asciiBytes "\x7b\"a\":"] (by decide)⟩

/-- C6: Exact consumption on success. When `raw_decode` succeeds on the
buffer with value `v` and remainder `r`, the consumed-byte count
`idx = length b - length r` is positive, dropping exactly `idx`
characters from the front of the buffer leaves exactly `r`, and the
inner loop yields `v` and continues on `r` unchanged. -/
theorem c6_exact_consumption (b : List Char) (v : JsonValue) (r : List Char)
    (h : rawDecode b = some (v, r)) :
    r.length < b.length ∧ b.drop (b.length - r.length) = r ∧
    drain b = (v :: (drain r).1, (drain r).2) := by
  obtain ⟨p, hp, he⟩ := rawDecode_sufBy h
  have hlen : p.length = b.length - r.length := by
    have hl := congrArg List.length he
    simp only [List.length_append] at hl
    omega
  refine ⟨rawDecode_length_lt h, ?_, drain_step h⟩
  rw [he, List.length_append]
  have hd : p.length + r.length - r.length = p.length := by omega
  rw [hd]
  exact List.drop_left p r

theorem c6_witness :
    (['x'] : List Char).length < (strChars "\x7b\x7dx").length ∧
    (strChars "\x7b\x7dx").drop ((strChars "\x7b\x7dx").length - (['x'] : List Char).length) = ['x'] ∧
    drain (strChars "\x7b\x7dx") = (JsonValue.obj [] :: (drain ['x']).1, (drain ['x']).2) :=
  c6_exact_consumption (strChars "\x7b\x7dx") (JsonValue.obj []) ['x'] rfl

/-- C9: Splitting a multi-byte UTF-8 character across a chunk boundary is
a hard error. A chunk consisting of decodable text followed by the lone
leading byte of a multi-byte sequence does not UTF-8-decode; any chunk
that does not UTF-8-decode makes the generator terminate with the
uncaught `UnicodeDecodeError`; and processing stops there — chunks after
the undecodable one never affect the output. -/
theorem c9_unicode_decode_error :
    (∀ good : List Nat, ∀ x : List Char, ∀ b : Nat, utf8Decode good = some x →
      0xC2 ≤ b → b < 0xF5 → utf8Decode (good ++ [b]) = none) ∧
    (∀ chunks : List (List Nat), (∃ ch ∈ chunks, utf8Decode ch = none) →
      (parse_json_stream chunks).2 = true) ∧
    (∀ pre : List (List Nat), ∀ ch : List Nat, ∀ post : List (List Nat),
      utf8Decode ch = none →
      parse_json_stream (pre ++ ch :: post) = parse_json_stream (pre ++ [ch])) :=
  ⟨fun _ _ _ h1 h2 h3 => utf8Decode_append_none h1 (utf8_lead_single h2 h3),
   fun chunks h => runBytes_err chunks [] h,
   fun pre ch post h => runBytes_stop pre [] ch post h⟩

theorem c9_witness :
    utf8Decode (asciiBytes "\x7b\"a\":\"" ++ [0xC3]) = none ∧
    (parse_json_stream [asciiBytes "\x7b\"a\":1\x7d\x7b\"b\":\"", [0xC3]]).2 = true ∧
    parse_json_stream [asciiBytes "\x7b\x7d", [0xC3], asciiBytes "\x7b\"b\":2\x7d"] =
      parse_json_stream [asciiBytes "\x7b\x7d", [0xC3]] :=
  ⟨c9_unicode_decode_error.1 (asciiBytes "\x7b\"a\":\"") (strChars "\x7b\"a\":\"") 0xC3 rfl
      (by decide) (by decide),
   c9_unicode_decode_error.2.1 [asciiBytes "\x7b\"a\":1\x7d\x7b\"b\":\"", [0xC3]]
      ⟨[0xC3], by decide, rfl⟩,
   c9_unicode_decode_error.2.2 [asciiBytes "\x7b\x7d"] [0xC3] [asciiBytes "\x7b\"b\":2\x7d"] rfl⟩

/-- C5 (amended): the trim drops exactly the bytes before the first `'\x7b'`
when the buffer contains one — and the trimmed bytes are never needed:
deleting leading non-brace junk does not change the output. When the
buffer contains no `'\x7b'` at all, `buffer.find` returns `-1`, so the
Python slice `buffer[-1:]` keeps the final character: all bytes but the
last are discarded, and the kept byte is not an object start. -/
theorem c5_trim_characterization :
    (∀ p q : List Char, '{' ∉ p → pyTrim (p ++ '{' :: q) = '{' :: q) ∧
    (∀ b : List Char, '{' ∉ b → pyTrim b = b.drop (b.length - 1)) ∧
    (∀ junk x : List Char, ∀ cs : List (List Char), '{' ∉ junk →
      runChar [] ((junk ++ '{' :: x) :: cs) = runChar [] (('{' :: x) :: cs)) := by
  refine ⟨fun p q hp => pyTrim_first hp, fun b hb => pyTrim_no_lbrace hb, ?_⟩
  intro junk x cs hj
  simp only [runChar, List.nil_append]
  rw [pyTrim_first hj, pyTrim_lbrace]

theorem c5_witness :
    pyTrim (strChars "xy" ++ '{' :: strChars "\x7d") = '{' :: strChars "\x7d" ∧
    pyTrim (strChars "ab") = (strChars "ab").drop ((strChars "ab").length - 1) ∧
    runChar [] ((strChars "junk" ++ '{' :: strChars "\"x\":true\x7d") :: []) =
      runChar [] (('{' :: strChars "\"x\":true\x7d") :: []) :=
  ⟨c5_trim_characterization.1 (strChars "xy") (strChars "\x7d") (by decide),
   c5_trim_characterization.2.1 (strChars "ab") (by decide),
   c5_trim_characterization.2.2 (strChars "junk") (strChars "\"x\":true\x7d") [] (by decide)⟩

/-- C5 counterexample: a chunk with no `'\x7b'` at all. `find` returns
`-1`, so `buffer[buffer.find("\x7b"):]` is `buffer[-1:]`: the final
character `'b'` is kept, not discarded, and the buffer does not begin at
an object start afterwards. -/
theorem c5_counterexample :
    pyTrim (strChars "ab") = ['b'] ∧ (pyTrim (strChars "ab")).head? ≠ some '{' ∧
    pyTrim (strChars "ab") ≠ [] := by decide

/-- C7: Back-to-back objects in one chunk: a single chunk that decodes to
the concatenation of two or more complete object documents yields all
their values, in order, from that one read, with no error. -/
theorem c7_back_to_back (ds : List (List Char)) (vs : List JsonValue)
    (hval : List.Forall₂ ValidDoc ds vs) (hlen : 2 ≤ ds.length)
    (chunk : List Nat) (hc : utf8Decode chunk = some ds.flatten) :
    2 ≤ vs.length ∧ parse_json_stream [chunk] = (vs, false) :=
  ⟨hlen.trans_eq hval.length_eq,
   runFull ds vs [] hval stuck_nil [ds.flatten] (by simp) [chunk]
     (List.Forall₂.cons hc List.Forall₂.nil)⟩

theorem c7_witness :
    2 ≤ ([JsonValue.obj [([97], JsonValue.num ['1'])], JsonValue.obj [([98], JsonValue.num ['2'])],
      JsonValue.obj [([99], JsonValue.num ['3'])]] : List JsonValue).length ∧
    parse_json_stream [asciiBytes "\x7b\"a\":1\x7d\x7b\"b\":2\x7d\x7b\"c\":3\x7d"] =
      ([JsonValue.obj [([97], JsonValue.num ['1'])], JsonValue.obj [([98], JsonValue.num ['2'])],
        JsonValue.obj [([99], JsonValue.num ['3'])]], false) :=
  c7_back_to_back
    [strChars "\x7b\"a\":1\x7d", strChars "\x7b\"b\":2\x7d", strChars "\x7b\"c\":3\x7d"]
    [JsonValue.obj [([97], JsonValue.num ['1'])], JsonValue.obj [([98], JsonValue.num ['2'])],
      JsonValue.obj [([99], JsonValue.num ['3'])]]
    (List.Forall₂.cons ⟨⟨_, rfl⟩, rfl⟩ (List.Forall₂.cons ⟨⟨_, rfl⟩, rfl⟩
      (List.Forall₂.cons ⟨⟨_, rfl⟩, rfl⟩ List.Forall₂.nil)))
    (by decide) (asciiBytes "\x7b\"a\":1\x7d\x7b\"b\":2\x7d\x7b\"c\":3\x7d") rfl

/-- C1 (amended): boundary independence over character-boundary cuts.
For valid object documents concatenated into one text, any re-chunking of
that text whose byte chunks each UTF-8-decode (equivalently: whose cut
points fall on character boundaries of the byte string) yields exactly
the values of the documents, in order and with no error — the same result
as feeding the whole byte string as one chunk. (Cut points inside a
multi-byte character are excluded: they raise `UnicodeDecodeError`, see
the counterexample.) -/
theorem c1_boundary_independence (ds : List (List Char)) (vs : List JsonValue)
    (hval : List.Forall₂ ValidDoc ds vs)
    (cs : List (List Char)) (hcs : cs.flatten = ds.flatten)
    (bss : List (List Nat))
    (hbss : List.Forall₂ (fun bs c => utf8Decode bs = some c) bss cs)
    (whole : List Nat) (hwhole : utf8Decode whole = some ds.flatten) :
    parse_json_stream bss = (vs, false) ∧ parse_json_stream [whole] = (vs, false) :=
  ⟨runFull ds vs [] hval stuck_nil cs (by simpa using hcs) bss hbss,
   runFull ds vs [] hval stuck_nil [ds.flatten] (by simp) [whole]
     (List.Forall₂.cons hwhole List.Forall₂.nil)⟩

theorem c1_witness :
    parse_json_stream [asciiBytes "\x7b\"a\"", asciiBytes ":1\x7d\x7b\"b\":2\x7d"] =
      ([JsonValue.obj [([97], JsonValue.num ['1'])],
        JsonValue.obj [([98], JsonValue.num ['2'])]], false) ∧
    parse_json_stream [asciiBytes "\x7b\"a\":1\x7d\x7b\"b\":2\x7d"] =
      ([JsonValue.obj [([97], JsonValue.num ['1'])],
        JsonValue.obj [([98], JsonValue.num ['2'])]], false) :=
  c1_boundary_independence
    [strChars "\x7b\"a\":1\x7d", strChars "\x7b\"b\":2\x7d"]
    [JsonValue.obj [([97], JsonValue.num ['1'])], JsonValue.obj [([98], JsonValue.num ['2'])]]
    (List.Forall₂.cons ⟨⟨_, rfl⟩, rfl⟩ (List.Forall₂.cons ⟨⟨_, rfl⟩, rfl⟩ List.Forall₂.nil))
    [strChars "\x7b\"a\"", strChars ":1\x7d\x7b\"b\":2\x7d"] rfl
    [asciiBytes "\x7b\"a\"", asciiBytes ":1\x7d\x7b\"b\":2\x7d"]
    (List.Forall₂.cons rfl (List.Forall₂.cons rfl List.Forall₂.nil))
    (asciiBytes "\x7b\"a\":1\x7d\x7b\"b\":2\x7d") rfl

/-- C1 counterexample: a cut point inside the two-byte encoding of `é`.
The whole byte string is one valid object and parses as one chunk, but
split between the bytes `0xC3` and `0xA9` the first chunk is not valid
UTF-8: `chunk.decode("utf-8")` raises and nothing is yielded, so the
output differs from the one-chunk run. -/
theorem c1_counterexample :
    utf8Decode (asciiBytes "\x7b\"a\":\"" ++ [0xC3, 0xA9] ++ asciiBytes "\"\x7d") =
      some (strChars "\x7b\"a\":\"é\"\x7d") ∧
    rawDecode (strChars "\x7b\"a\":\"é\"\x7d") =
      some (JsonValue.obj [([97], JsonValue.str [233])], []) ∧
    parse_json_stream [asciiBytes "\x7b\"a\":\"" ++ [0xC3, 0xA9] ++ asciiBytes "\"\x7d"] =
      ([JsonValue.obj [([97], JsonValue.str [233])]], false) ∧
    parse_json_stream [asciiBytes "\x7b\"a\":\"" ++ [0xC3], [0xA9] ++ asciiBytes "\"\x7d"] =
      ([], true) :=
  ⟨rfl, rfl, rfl, rfl⟩

/-- C3 (amended): no partial emission and silent drop at end of stream,
for streams whose chunks each UTF-8-decode. When the decoded stream is
valid object documents followed by a nonempty proper prefix of a further
valid object document, the run yields exactly the complete documents'
values, nothing for the truncated fragment, and ends with no error — the
leftover is silently dropped. (If the truncation also splits a multi-byte
UTF-8 character, the generator instead ends with `UnicodeDecodeError`,
see the counterexample.) -/
theorem c3_truncated_tail (ds : List (List Char)) (vs : List JsonValue)
    (hval : List.Forall₂ ValidDoc ds vs)
    (T : List Char) (hT : T ≠ []) (d' : List Char) (v' : JsonValue)
    (hvd' : ValidDoc d' v') (w : List Char) (hw : w ≠ []) (hTw : T ++ w = d')
    (cs : List (List Char)) (hcs : cs.flatten = ds.flatten ++ T)
    (bss : List (List Nat))
    (hbss : List.Forall₂ (fun bs c => utf8Decode bs = some c) bss cs) :
    parse_json_stream bss = (vs, false) :=
  runFull ds vs T hval (stuck_of_proper hvd' hw hTw hT) cs hcs bss hbss

theorem c3_witness :
    parse_json_stream [asciiBytes "\x7b\"a\":1\x7d\x7b\"b\":"] =
      ([JsonValue.obj [([97], JsonValue.num ['1'])]], false) :=
  c3_truncated_tail
    [strChars "\x7b\"a\":1\x7d"] [JsonValue.obj [([97], JsonValue.num ['1'])]]
    (List.Forall₂.cons ⟨⟨_, rfl⟩, rfl⟩ List.Forall₂.nil)
    (strChars "\x7b\"b\":") (by decide)
    (strChars "\x7b\"b\":2\x7d") (JsonValue.obj [([98], JsonValue.num ['2'])])
    ⟨⟨_, rfl⟩, rfl⟩
    (strChars "2\x7d") (by decide) rfl
    [strChars "\x7b\"a\":1\x7d\x7b\"b\":"] rfl
    [asciiBytes "\x7b\"a\":1\x7d\x7b\"b\":"]
    (List.Forall₂.cons rfl List.Forall₂.nil)

/-- C3 counterexample: the stream ends truncated mid-object and also
mid-character (final chunk is the lone lead byte `0xC3`). The complete
first object is yielded, but the generator then terminates with the
uncaught `UnicodeDecodeError` — an error is raised, unlike the silent
drop the claim states for every truncated stream. -/
theorem c3_counterexample :
    rawDecode (strChars "\x7b\"a\":1\x7d") =
      some (JsonValue.obj [([97], JsonValue.num ['1'])], []) ∧
    parse_json_stream [asciiBytes "\x7b\"a\":1\x7d\x7b\"b\":\"", [0xC3]] =
      ([JsonValue.obj [([97], JsonValue.num ['1'])]], true) :=
  ⟨rfl, rfl⟩

/-- C8: Lenient parsing. With `strict=False`, an object whose string value
contains a raw control character (code point below `0x20`) is decoded and
yielded by `parse_json_stream`, while the strict decoder (CPython's
default) rejects the same text. -/
theorem c8_lenient_control_chars (c : Char) (h : c.toNat < 0x20) :
    parse_json_stream [asciiBytes "\x7b\"k\":\"" ++ c.toNat :: asciiBytes "\"\x7d"] =
      ([JsonValue.obj [([107], JsonValue.str [c.toNat])]], false) ∧
    rawDecodeS (strChars "\x7b\"k\":\"" ++ c :: strChars "\"\x7d") = none := by
  obtain ⟨n, hn, rfl⟩ : ∃ n, n < 0x20 ∧ c = Char.ofNat n :=
    ⟨c.toNat, h, (Char.ofNat_toNat c).symm⟩
  interval_cases n <;> exact ⟨rfl, rfl⟩

theorem c8_witness :
    parse_json_stream [asciiBytes "\x7b\"k\":\"" ++ ('\n').toNat :: asciiBytes "\"\x7d"] =
      ([JsonValue.obj [([107], JsonValue.str [('\n').toNat])]], false) ∧
    rawDecodeS (strChars "\x7b\"k\":\"" ++ '\n' :: strChars "\"\x7d") = none :=
  c8_lenient_control_chars '\n' (by decide)

/-- C10: raw_decode does not skip leading whitespace and the trim to the
first `'\x7b'` runs only once per chunk, so when one chunk decodes to two
complete objects separated by whitespace, only the first is yielded from
that chunk; the second is yielded only after a further chunk arrives
(whatever its decodable content), via the next trim. If no further chunk
arrives the second object is silently never emitted: the run ends after
the first value with no error. -/
theorem c10_whitespace_separated_second_object (d1 d2 : List Char)
    (m1 m2 : List (List Nat × JsonValue))
    (h1 : rawDecode d1 = some (JsonValue.obj m1, []))
    (h2 : rawDecode d2 = some (JsonValue.obj m2, []))
    (w : List Char) (hw : w ≠ []) (hws : ∀ ch ∈ w, isPyWs ch)
    (b : List Nat) (hb : utf8Decode b = some (d1 ++ w ++ d2)) :
    parse_json_stream [b] = ([JsonValue.obj m1], false) ∧
    (∀ b2 cs2, utf8Decode b2 = some cs2 →
      ∃ rest, (parse_json_stream [b, b2]).1 =
        JsonValue.obj m1 :: JsonValue.obj m2 :: rest) := by
  obtain ⟨x1, hd1⟩ := rawDecode_obj_head h1
  obtain ⟨x2, hd2⟩ := rawDecode_obj_head h2
  have hwsnone : rawDecode (w ++ d2) = none := by
    rcases w with _ | ⟨wc, w'⟩
    · exact absurd rfl hw
    · rw [List.cons_append]
      exact rawDecode_ws_none (hws wc (List.mem_cons_self wc w')) (w' ++ d2)
  have hdec1 : rawDecode (d1 ++ (w ++ d2)) = some (JsonValue.obj m1, w ++ d2) :=
    rawDecode_obj_ext h1
  have hdrain1 : drain (d1 ++ (w ++ d2)) = ([JsonValue.obj m1], w ++ d2) := by
    rw [drain_step hdec1, drain_none hwsnone]
  have hassoc : d1 ++ w ++ d2 = '{' :: (x1 ++ (w ++ d2)) := by
    rw [List.append_assoc, hd1, List.cons_append]
  have hdrain1' : drain ('{' :: (x1 ++ (w ++ d2))) = ([JsonValue.obj m1], w ++ d2) := by
    rw [← List.cons_append, ← hd1]
    exact hdrain1
  constructor
  · show runBytes [] [b] = ([JsonValue.obj m1], false)
    simp only [runBytes]
    rw [hb]
    dsimp only
    rw [List.nil_append, hassoc, pyTrim_lbrace, hdrain1']
    rfl
  · intro b2 cs2 hb2
    refine ⟨(drain cs2).1, ?_⟩
    show (runBytes [] [b, b2]).1 =
      JsonValue.obj m1 :: JsonValue.obj m2 :: (drain cs2).1
    simp only [runBytes]
    rw [hb, hb2]
    dsimp only
    rw [List.nil_append, hassoc, pyTrim_lbrace, hdrain1']
    dsimp only
    have hassoc2 : (w ++ d2) ++ cs2 = w ++ ('{' :: (x2 ++ cs2)) := by
      rw [List.append_assoc, hd2, List.cons_append]
    rw [hassoc2, pyTrim_ws hws]
    have hdec2 : rawDecode (d2 ++ cs2) = some (JsonValue.obj m2, cs2) :=
      rawDecode_obj_ext h2
    have hdrain2 : drain ('{' :: (x2 ++ cs2)) =
        (JsonValue.obj m2 :: (drain cs2).1, (drain cs2).2) := by
      rw [← List.cons_append, ← hd2]
      exact drain_step hdec2
    rw [hdrain2]
    simp [runBytes]

theorem c10_witness :
    parse_json_stream [asciiBytes "\x7b\"a\":1\x7d \x7b\"b\":2\x7d"] =
      ([JsonValue.obj [([97], JsonValue.num ['1'])]], false) ∧
    ∃ rest, (parse_json_stream [asciiBytes "\x7b\"a\":1\x7d \x7b\"b\":2\x7d", asciiBytes "x"]).1 =
      JsonValue.obj [([97], JsonValue.num ['1'])] ::
        JsonValue.obj [([98], JsonValue.num ['2'])] :: rest :=
  ⟨(c10_whitespace_separated_second_object (strChars "\x7b\"a\":1\x7d") (strChars "\x7b\"b\":2\x7d")
      [([97], JsonValue.num ['1'])] [([98], JsonValue.num ['2'])] rfl rfl
      [' '] (by decide) (by decide) (asciiBytes "\x7b\"a\":1\x7d \x7b\"b\":2\x7d") rfl).1,
   (c10_whitespace_separated_second_object (strChars "\x7b\"a\":1\x7d") (strChars "\x7b\"b\":2\x7d")
      [([97], JsonValue.num ['1'])] [([98], JsonValue.num ['2'])] rfl rfl
      [' '] (by decide) (by decide) (asciiBytes "\x7b\"a\":1\x7d \x7b\"b\":2\x7d") rfl).2
     (asciiBytes "x") (strChars "x") rfl⟩
